import Mathlib

/-!
Verification development for the `api_testing_agent` repository.

The Python sources are shallowly embedded as Lean definitions:

* text is modelled as `List Char` (`Str`); Python's whitespace-sensitive
  string primitives (`strip`, `split`, `splitlines`, `upper`, slicing) are
  reimplemented on that type, restricted to the ASCII whitespace characters
  (all inputs appearing in the claims are ASCII);
* JSON-like data (Jira issue payloads, parsed LLM responses, the contract
  dictionaries built by `contract_parser.py`) is modelled by the inductive
  type `JValue`, with Python truthiness as `pythonTruthy`;
* Python code that can raise returns `Except PyErr`; a `.error` value of the
  embedding corresponds to an uncaught Python exception;
* network access and YAML parsing are oracle parameters (any function is a
  possible behaviour of the outside world); `json.loads` is embedded as the
  executable parser `jsonLoads`.
-/

namespace ApiTestingAgent

abbrev Str := List Char

/-- ASCII whitespace, the characters matched by Python's `str.strip()` /
`str.split()` / regex `\s` on ASCII text: space, `\t`, `\n`, `\r`, `\x0b`, `\x0c`. -/
def pyIsWs (c : Char) : Bool :=
  c = ' ' || c = '\t' || c = '\n' || c = '\r' || c = '\x0b' || c = '\x0c'

/-- Python `str.lstrip()` (ASCII whitespace). -/
def pyLstrip (s : Str) : Str := s.dropWhile pyIsWs

/-- Python `str.rstrip()` (ASCII whitespace). -/
def pyRstrip (s : Str) : Str := (s.reverse.dropWhile pyIsWs).reverse

/-- Python `str.strip()` (ASCII whitespace). -/
def pyStrip (s : Str) : Str := pyRstrip (pyLstrip s)

/-- Python `str.strip(chars)` for an explicit character set. -/
def pyStripChars (chars : List Char) (s : Str) : Str :=
  ((s.dropWhile (chars.contains ·)).reverse.dropWhile (chars.contains ·)).reverse

/-- Python `str.rstrip(chars)` for an explicit character set. -/
def pyRstripChars (chars : List Char) (s : Str) : Str :=
  (s.reverse.dropWhile (chars.contains ·)).reverse

/-- Python `str.upper()` (ASCII). -/
def pyUpper (s : Str) : Str := s.map Char.toUpper

/-- Python `str.lower()` (ASCII). -/
def pyLower (s : Str) : Str := s.map Char.toLower

/-- Python slicing `s[:n]` on strings/lists with a nonnegative bound. -/
def pyTake (n : Nat) (s : Str) : Str := s.take n

mutual
/-- Helper for `str.split()`: currently inside a token (accumulated reversed in `cur`). -/
def pySplitTok (cur : Str) : Str → List Str
  | [] => [cur.reverse]
  | c :: rest =>
    if pyIsWs c then cur.reverse :: pySplitGap rest else pySplitTok (c :: cur) rest

/-- Helper for `str.split()`: currently between tokens. -/
def pySplitGap : Str → List Str
  | [] => []
  | c :: rest => if pyIsWs c then pySplitGap rest else pySplitTok [c] rest
end

/-- Python `str.split()` with no argument: split on runs of whitespace,
discarding empty tokens. -/
def pySplitWs (s : Str) : List Str := pySplitGap s

/-- Line-break characters recognised by Python `str.splitlines()`
(restricted to the single-character ASCII/latin breaks plus the Unicode
line/paragraph separators; `\r\n` is handled as one break). -/
def pyIsLineBreak (c : Char) : Bool :=
  c = '\n' || c = '\r' || c = '\x0b' || c = '\x0c' ||
  c = '\x1c' || c = '\x1d' || c = '\x1e' || c = '\x85' ||
  c = '\u2028' || c = '\u2029'

/-- Helper for `str.splitlines()`. -/
def pySplitlinesGo (cur : Str) : Str → List Str
  | [] => [cur.reverse]
  | '\r' :: '\n' :: rest =>
    cur.reverse :: (if rest.isEmpty then [] else pySplitlinesGo [] rest)
  | c :: rest =>
    if pyIsLineBreak c then
      cur.reverse :: (if rest.isEmpty then [] else pySplitlinesGo [] rest)
    else
      pySplitlinesGo (c :: cur) rest

/-- Python `str.splitlines()`: `""` gives `[]`, a trailing line break does not
produce a trailing empty line. -/
def pySplitlines (s : Str) : List Str :=
  if s.isEmpty then [] else pySplitlinesGo [] s

/-- Python substring containment `needle in haystack`. -/
def pyContains (haystack needle : Str) : Bool :=
  match haystack with
  | [] => needle.isEmpty
  | _ :: rest => needle.isPrefixOf haystack || pyContains rest needle

/-- Python `str.endswith(suffix)`. -/
def pyEndsWith (s suffix : Str) : Bool := suffix.isSuffixOf s

/-- Case-insensitive (ASCII) literal match of `pat` at the start of `s`. -/
def ciStarts (pat s : Str) : Bool :=
  match pat, s with
  | [], _ => true
  | _ :: _, [] => false
  | p :: ps, c :: cs => (c.toLower = p.toLower) && ciStarts ps cs

/-! ## JSON-like values and Python semantics -/

/-- Python exceptions that the embedded code can raise. -/
inductive PyErr where
  | typeError
  | attributeError
  deriving DecidableEq, Repr

/-- JSON-like Python values (the payloads flowing through the pipeline).
Numbers keep their source lexeme (`5`, `0.0`, `-1e3`, `NaN`, `Infinity`),
which determines truthiness without committing to float semantics. -/
inductive JValue where
  | jnull
  | jbool (b : Bool)
  | jnum (lexeme : Str)
  | jstr (s : Str)
  | jarr (items : List JValue)
  | jobj (entries : List (Str × JValue))

mutual
/-- Decidable equality for `JValue` (deriving does not handle the nested lists). -/
def decEqJ : (a b : JValue) → Decidable (a = b)
  | .jnull, .jnull => .isTrue rfl
  | .jbool a, .jbool b =>
    match instDecidableEqBool a b with
    | .isTrue h => .isTrue (by rw [h])
    | .isFalse h => .isFalse (fun hh => h (JValue.jbool.inj hh))
  | .jnum a, .jnum b =>
    match List.hasDecEq a b with
    | .isTrue h => .isTrue (by rw [h])
    | .isFalse h => .isFalse (fun hh => h (JValue.jnum.inj hh))
  | .jstr a, .jstr b =>
    match List.hasDecEq a b with
    | .isTrue h => .isTrue (by rw [h])
    | .isFalse h => .isFalse (fun hh => h (JValue.jstr.inj hh))
  | .jarr a, .jarr b =>
    match decEqJList a b with
    | .isTrue h => .isTrue (by rw [h])
    | .isFalse h => .isFalse (fun hh => h (JValue.jarr.inj hh))
  | .jobj a, .jobj b =>
    match decEqJObj a b with
    | .isTrue h => .isTrue (by rw [h])
    | .isFalse h => .isFalse (fun hh => h (JValue.jobj.inj hh))
  | .jnull, .jbool _ | .jnull, .jnum _ | .jnull, .jstr _ | .jnull, .jarr _
  | .jnull, .jobj _ | .jbool _, .jnull | .jbool _, .jnum _ | .jbool _, .jstr _
  | .jbool _, .jarr _ | .jbool _, .jobj _ | .jnum _, .jnull | .jnum _, .jbool _
  | .jnum _, .jstr _ | .jnum _, .jarr _ | .jnum _, .jobj _ | .jstr _, .jnull
  | .jstr _, .jbool _ | .jstr _, .jnum _ | .jstr _, .jarr _ | .jstr _, .jobj _
  | .jarr _, .jnull | .jarr _, .jbool _ | .jarr _, .jnum _ | .jarr _, .jstr _
  | .jarr _, .jobj _ | .jobj _, .jnull | .jobj _, .jbool _ | .jobj _, .jnum _
  | .jobj _, .jstr _ | .jobj _, .jarr _ => .isFalse (by intro h; exact JValue.noConfusion h)

def decEqJList : (a b : List JValue) → Decidable (a = b)
  | [], [] => .isTrue rfl
  | [], _ :: _ => .isFalse (by intro h; exact List.noConfusion h)
  | _ :: _, [] => .isFalse (by intro h; exact List.noConfusion h)
  | x :: xs, y :: ys =>
    match decEqJ x y with
    | .isTrue h1 =>
      match decEqJList xs ys with
      | .isTrue h2 => .isTrue (by rw [h1, h2])
      | .isFalse h2 => .isFalse (fun hh => h2 (List.cons.inj hh).2
      )
    | .isFalse h1 => .isFalse (fun hh => h1 (List.cons.inj hh).1)

def decEqJObj : (a b : List (Str × JValue)) → Decidable (a = b)
  | [], [] => .isTrue rfl
  | [], _ :: _ => .isFalse (by intro h; exact List.noConfusion h)
  | _ :: _, [] => .isFalse (by intro h; exact List.noConfusion h)
  | (k, v) :: xs, (k', v') :: ys =>
    match List.hasDecEq k k' with
    | .isTrue hk =>
      match decEqJ v v' with
      | .isTrue h1 =>
        match decEqJObj xs ys with
        | .isTrue h2 => .isTrue (by rw [hk, h1, h2])
        | .isFalse h2 => .isFalse (fun hh => h2 (List.cons.inj hh).2)
      | .isFalse h1 =>
        .isFalse (fun hh => h1 (congrArg Prod.snd (List.cons.inj hh).1))
    | .isFalse hk =>
      .isFalse (fun hh => hk (congrArg Prod.fst (List.cons.inj hh).1))
end

instance : DecidableEq JValue := decEqJ

instance {ε α : Type} [DecidableEq ε] [DecidableEq α] :
    DecidableEq (Except ε α) := fun a b =>
  match a, b with
  | .error e, .error f =>
    match decEq e f with
    | .isTrue h => .isTrue (by rw [h])
    | .isFalse h => .isFalse (fun hh => h (Except.error.inj hh))
  | .ok x, .ok y =>
    match decEq x y with
    | .isTrue h => .isTrue (by rw [h])
    | .isFalse h => .isFalse (fun hh => h (Except.ok.inj hh))
  | .error _, .ok _ => .isFalse (fun hh => Except.noConfusion hh)
  | .ok _, .error _ => .isFalse (fun hh => Except.noConfusion hh)

namespace JValue

/-- Zero test on a number lexeme: the mantissa (everything before an
exponent marker) consists only of `-`, `.` and `0`.  `0`, `-0.00`, `0e5`
are zero; `NaN`, `Infinity` and any lexeme with a nonzero digit are not. -/
def numLexemeIsZero (lex : Str) : Bool :=
  (lex.takeWhile (fun c => !(c = 'e' || c = 'E'))).all
    (fun c => c = '-' || c = '.' || c = '0')

/-- Python truthiness of a JSON-like value. -/
def pythonTruthy : JValue → Bool
  | jnull => false
  | jbool b => b
  | jnum lex => !numLexemeIsZero lex
  | jstr s => !s.isEmpty
  | jarr items => !items.isEmpty
  | jobj entries => !entries.isEmpty

/-- First-occurrence lookup in an association list (Python `dict` access on
well-formed dicts, whose keys are unique). -/
def alistGet (k : Str) : List (Str × JValue) → Option JValue
  | [] => none
  | (k', v) :: rest => if k' = k then some v else alistGet k rest

/-- Remove every entry with key `k` (Python `dict.pop(k)` on unique-key dicts). -/
def alistRemove (k : Str) (l : List (Str × JValue)) : List (Str × JValue) :=
  l.filter (fun e => decide (e.1 ≠ k))

/-- Python `d[k] = v`: overwrite the value at the first occurrence of `k`
in place, else append a new entry. -/
def alistSet (k : Str) (v : JValue) : List (Str × JValue) → List (Str × JValue)
  | [] => [(k, v)]
  | (k', v') :: rest =>
    if k' = k then (k', v) :: rest else (k', v') :: alistSet k v rest

/-- Python `d.get(k)` (default `None`) on a dict; `AttributeError` on
anything that is not a dict. -/
def pyGet (d : JValue) (k : Str) : Except PyErr JValue :=
  match d with
  | jobj m => .ok ((alistGet k m).getD jnull)
  | _ => .error .attributeError

/-- Python membership test `k in x` for a string key `k`:
key lookup on dicts, element equality on lists, substring test on strings,
`TypeError` on non-containers. -/
def pyKeyIn (k : Str) : JValue → Except PyErr Bool
  | jobj m => .ok (alistGet k m).isSome
  | jarr items =>
    -- a Python `str` compares equal only to an equal `str`
    .ok (items.any fun v => match v with | jstr s => decide (s = k) | _ => false)
  | jstr s => .ok (pyContains s k)
  | _ => .error .typeError

end JValue

/-! ## `json.loads` -/

namespace JsonParse

open JValue

/-- JSON whitespace accepted by Python's `json.loads` between tokens. -/
def jsonWs (c : Char) : Bool := c = ' ' || c = '\t' || c = '\n' || c = '\r'

def skipWs (s : Str) : Str := s.dropWhile jsonWs

def hexVal (c : Char) : Option Nat :=
  if '0' ≤ c ∧ c ≤ '9' then some (c.toNat - '0'.toNat)
  else if 'a' ≤ c ∧ c ≤ 'f' then some (c.toNat - 'a'.toNat + 10)
  else if 'A' ≤ c ∧ c ≤ 'F' then some (c.toNat - 'A'.toNat + 10)
  else none

/-- Scan a JSON string body after the opening quote.  Supports the
standard escapes and `\uXXXX` (individual code units; surrogate pairing is
not modelled). Unescaped control characters are rejected, as in strict
`json.loads`. -/
def scanString (acc : Str) : Str → Option (Str × Str)
  | [] => none
  | '"' :: rest => some (acc.reverse, rest)
  | '\\' :: esc :: rest =>
    match esc with
    | '"' => scanString ('"' :: acc) rest
    | '\\' => scanString ('\\' :: acc) rest
    | '/' => scanString ('/' :: acc) rest
    | 'b' => scanString ('\x08' :: acc) rest
    | 'f' => scanString ('\x0c' :: acc) rest
    | 'n' => scanString ('\n' :: acc) rest
    | 'r' => scanString ('\r' :: acc) rest
    | 't' => scanString ('\t' :: acc) rest
    | 'u' =>
      match rest with
      | a :: b :: c :: d :: rest' =>
        match hexVal a, hexVal b, hexVal c, hexVal d with
        | some ha, some hb, some hc, some hd =>
          let n := ((ha * 16 + hb) * 16 + hc) * 16 + hd
          if h : n.isValidChar then scanString (Char.ofNatAux n h :: acc) rest'
          else none
        | _, _, _, _ => none
      | _ => none
    | _ => none
  | c :: rest =>
    if c.toNat < 0x20 then none else scanString (c :: acc) rest

def isDigit (c : Char) : Bool := '0' ≤ c && c ≤ '9'

/-- Scan a JSON number starting at `s` (sign already included in `s`),
returning the accepted lexeme and the remainder.  Grammar:
`-?(0|[1-9][0-9]*)(\.[0-9]+)?([eE][+-]?[0-9]+)?`. -/
def scanNumber (s : Str) : Option (Str × Str) := do
  let (sign, s₁) := match s with
    | '-' :: rest => (['-'], rest)
    | _ => (([] : Str), s)
  let (intPart, s₂) ← match s₁ with
    | '0' :: rest => some ((['0'] : Str), rest)
    | c :: _ =>
      if isDigit c ∧ c ≠ '0' then
        some (s₁.takeWhile isDigit, s₁.dropWhile isDigit)
      else none
    | [] => none
  let (fracPart, s₃) := match s₂ with
    | '.' :: rest =>
      if (rest.takeWhile isDigit).isEmpty then (([] : Str), s₂)
      else ('.' :: rest.takeWhile isDigit, rest.dropWhile isDigit)
    | _ => (([] : Str), s₂)
  -- a bare '.' with no digits is a parse error, not a shorter number
  if s₂ ≠ s₃ ∨ s₂.head? ≠ some '.' then
    let (expPart, s₄) := match s₃ with
      | e :: rest =>
        if e = 'e' ∨ e = 'E' then
          let (sgn, rest') := match rest with
            | '+' :: r => ((['+'] : Str), r)
            | '-' :: r => ((['-'] : Str), r)
            | _ => (([] : Str), rest)
          if (rest'.takeWhile isDigit).isEmpty then (([] : Str), s₃)
          else (e :: (sgn ++ rest'.takeWhile isDigit), rest'.dropWhile isDigit)
        else (([] : Str), s₃)
      | [] => (([] : Str), s₃)
    some (sign ++ intPart ++ fracPart ++ expPart, s₄)
  else none

mutual
/-- Parse one JSON value. `fuel` bounds the recursion depth. -/
def parseVal (fuel : Nat) (s : Str) : Option (JValue × Str) :=
  match fuel with
  | 0 => none
  | fuel + 1 =>
    match s with
    | '"' :: rest => (scanString [] rest).map (fun (str, r) => (jstr str, r))
    | '{' :: rest => parseObj fuel (skipWs rest) []
    | '[' :: rest => parseArr fuel (skipWs rest) []
    | 't' :: rest =>
      if "rue".toList.isPrefixOf rest then some (jbool true, rest.drop 3) else none
    | 'f' :: rest =>
      if "alse".toList.isPrefixOf rest then some (jbool false, rest.drop 4) else none
    | 'n' :: rest =>
      if "ull".toList.isPrefixOf rest then some (jnull, rest.drop 3) else none
    | 'N' :: rest =>
      if "aN".toList.isPrefixOf rest then some (jnum "NaN".toList, rest.drop 2) else none
    | 'I' :: rest =>
      if "nfinity".toList.isPrefixOf rest then
        some (jnum "Infinity".toList, rest.drop 7)
      else none
    | '-' :: 'I' :: rest =>
      if "nfinity".toList.isPrefixOf rest then
        some (jnum "-Infinity".toList, rest.drop 7)
      else none
    | _ => (scanNumber s).map (fun (lex, r) => (jnum lex, r))

/-- Parse the inside of a JSON object (after `{` and leading whitespace).
Duplicate keys follow `dict` semantics: last value wins, first position kept. -/
def parseObj (fuel : Nat) (s : Str) (acc : List (Str × JValue)) :
    Option (JValue × Str) :=
  match fuel with
  | 0 => none
  | fuel + 1 =>
    match s with
    | '}' :: rest => if acc.isEmpty then some (jobj [], rest) else none
    | '"' :: rest => do
      let (key, r₁) ← scanString [] rest
      match skipWs r₁ with
      | ':' :: r₂ => do
        let (v, r₃) ← parseVal fuel (skipWs r₂)
        let acc' := alistSet key v acc
        match skipWs r₃ with
        | ',' :: r₄ => parseObj fuel (skipWs r₄) acc'
        | '}' :: r₄ => some (jobj acc', r₄)
        | _ => none
      | _ => none
    | _ => none

/-- Parse the inside of a JSON array (after `[` and leading whitespace). -/
def parseArr (fuel : Nat) (s : Str) (acc : List JValue) :
    Option (JValue × Str) :=
  match fuel with
  | 0 => none
  | fuel + 1 =>
    match s with
    | ']' :: rest => if acc.isEmpty then some (jarr [], rest) else none
    | _ => do
      let (v, r₁) ← parseVal fuel s
      match skipWs r₁ with
      | ',' :: r₂ => parseArr fuel (skipWs r₂) (acc ++ [v])
      | ']' :: r₂ => some (jarr (acc ++ [v]), r₂)
      | _ => none
end

end JsonParse

/-- Embedding of Python `json.loads`: parse a complete JSON document,
allowing surrounding whitespace, rejecting trailing garbage. -/
def jsonLoads (s : Str) : Option JValue := do
  let (v, rest) ← JsonParse.parseVal (s.length + 1) (JsonParse.skipWs s)
  if (JsonParse.skipWs rest).isEmpty then some v else none

/-! ## `integrations/jira/contract_parser.py` -/

open JValue

/-- The spec-location keywords of `extract_openapi_url`'s regex, in
alternation order (their first letters are pairwise distinct, so at most
one can match at a given position). -/
def specKeywords : List Str :=
  ["openapi".toList, "swagger".toList, "api-docs".toList, "docs".toList]

/-- The recognised spec-file extensions, in alternation order. -/
def specExts : List Str := ["json".toList, "yaml".toList, "yml".toList]

/-- First pattern of `pats` that case-insensitively matches a prefix of `s`,
returned as its length. -/
def firstCiLen (pats : List Str) (s : Str) : Option Nat :=
  match pats with
  | [] => none
  | p :: ps => if ciStarts p s then some p.length else firstCiLen ps s

/-- The regex tail `(?:/|(?=\s)|$)` after a keyword/extension: a consumed
`/`, a lookahead whitespace (consuming nothing), or end of input.
Returns the number of characters consumed. -/
def urlTermAt : Str → Option Nat
  | [] => some 0
  | '/' :: _ => some 1
  | c :: _ => if pyIsWs c then some 0 else none

/-- The regex tail `/(?:openapi|swagger|api-docs|docs)(?:\.(?:json|yaml|yml))?(?:/|(?=\s)|$)`
starting at `s`; returns the number of characters it consumes.  The optional
extension group is greedy: it is taken whenever extension and terminator both
match, otherwise the terminator is retried directly after the keyword. -/
def urlSuffixAt (s : Str) : Option Nat :=
  match s with
  | '/' :: rest =>
    match firstCiLen specKeywords rest with
    | some klen =>
      let afterK := rest.drop klen
      let withExt : Option Nat :=
        match afterK with
        | '.' :: r2 =>
          (firstCiLen specExts r2).bind fun elen =>
            (urlTermAt (r2.drop elen)).map fun t => 1 + elen + t
        | _ => none
      match withExt with
      | some n => some (1 + klen + n)
      | none => (urlTermAt afterK).map fun t => 1 + klen + t
    | none => none
  | _ => none

/-- The lazy body `[^\s]+?` of the URL regex followed by `urlSuffixAt`:
consume at least one non-whitespace character, then after each consumed
character first try the suffix (lazy matching).  Returns the total number of
characters matched from the start of the body. -/
def urlBodyLoop : Str → Option Nat
  | [] => none
  | c :: rest =>
    if pyIsWs c then none
    else
      match urlSuffixAt rest with
      | some n => some (1 + n)
      | none => (urlBodyLoop rest).map (· + 1)

/-- Attempt the whole URL regex at the current position; returns the length
of the match.  `https?` never needs backtracking because `https://` and
`http://` cannot both match. -/
def urlMatchAt (s : Str) : Option Nat :=
  if ciStarts "https://".toList s then
    (urlBodyLoop (s.drop 8)).map (8 + ·)
  else if ciStarts "http://".toList s then
    (urlBodyLoop (s.drop 7)).map (7 + ·)
  else none

/-- Model of the `re.search` scan: try the match at each position, left to right, and
return the matched segment of the text. -/
def urlSearch : Str → Option Str
  | [] => none
  | c :: rest =>
    match urlMatchAt (c :: rest) with
    | some n => some ((c :: rest).take n)
    | none => urlSearch rest

/-- Embedding of `extract_openapi_url`: find an OpenAPI/Swagger-style URL in the text
and strip trailing slashes from the match. -/
def extract_openapi_url (text : Str) : Option Str :=
  if text.isEmpty then none
  else (urlSearch text).map (pyRstripChars ['/'])

/-- The HTTP-method test of `extract_endpoints`: the uppercased stripped
line must start with the method name followed by a literal space. -/
def lineStartsWithMethod (upperLine : Str) : Bool :=
  "GET ".toList.isPrefixOf upperLine || "POST ".toList.isPrefixOf upperLine ||
  "PUT ".toList.isPrefixOf upperLine || "DELETE ".toList.isPrefixOf upperLine ||
  "PATCH ".toList.isPrefixOf upperLine

/-- Loop body of `extract_endpoints` for a single raw line. -/
def endpointOfLine (rawLine : Str) : Option (Str × Str) :=
  let line := pyStrip rawLine
  if lineStartsWithMethod (pyUpper line) then
    match pySplitWs line with
    | t₁ :: t₂ :: _ => some (pyUpper t₁, t₂)
    | _ => none
  else none

/-- Embedding of `extract_endpoints`: collect `(method, path)` pairs from lines whose
stripped form starts with an HTTP method and a space, in line order,
keeping duplicates. -/
def extract_endpoints (text : Str) : List (Str × Str) :=
  if text.isEmpty then []
  else (pySplitlines text).filterMap endpointOfLine

/-- Model of `' '.join(filter(None, parts))`. -/
def joinTruthy (parts : List Str) : Str :=
  List.intercalate [' '] (parts.filter (fun p => !p.isEmpty))

mutual
/-- Embedding of `extract_text_from_adf`: recursively collect the `text` nodes of an
Atlassian-Document-Format tree.  The `text` value (if truthy) must be a
string, otherwise Python's `' '.join` raises `TypeError` — that is the
only error source; a falsy `text` value is dropped by `filter(None, ...)`. -/
def extract_text_from_adf : JValue → Except PyErr Str
  | .jobj m => do
    let tp ←
      match alistGet "text".toList m with
      | some tv =>
        if pythonTruthy tv then
          match tv with
          | .jstr s => Except.ok [s]
          | _ => Except.error .typeError
        else Except.ok ([] : List Str)
      | none => Except.ok ([] : List Str)
    let cps ← adfContentParts m
    let result := joinTruthy ((tp : List Str) ++ cps)
    match alistGet "type".toList m with
    | some (.jstr t) =>
      if t = "paragraph".toList ∨ t = "heading".toList then
        Except.ok (result ++ ['\n'])
      else Except.ok result
    | _ => Except.ok result
  | _ => .ok []

/-- Handling of `adf['content']`: the first `content` entry, when its value is
a list, contributes the recursively extracted text of each item (in order);
a missing `content` key or a non-list value contributes nothing. -/
def adfContentParts : List (Str × JValue) → Except PyErr (List Str)
  | [] => .ok []
  | (k, v) :: rest =>
    if k = "content".toList then
      match v with
      | .jarr items => adfTextParts items
      | _ => .ok []
    else adfContentParts rest

/-- Recursive extraction over the items of a `content` array. -/
def adfTextParts : List JValue → Except PyErr (List Str)
  | [] => .ok []
  | v :: vs => do
    let s ← extract_text_from_adf v
    let ss ← adfTextParts vs
    .ok (s :: ss)
end

mutual
/-- Python `str()` of a JSON-like value (approximate: numbers print their
lexeme, strings inside containers use naive single quotes).  Only reached
by `normalize_description` for truthy non-string, non-dict values, where
the claims do not depend on the exact rendering. -/
def pyStrJ : JValue → Str
  | .jnull => "None".toList
  | .jbool true => "True".toList
  | .jbool false => "False".toList
  | .jnum lex => lex
  | .jstr s => s
  | .jarr items => '[' :: pyReprJList items ++ [']']
  | .jobj entries => '\x7b' :: pyReprJObj entries ++ ['\x7d']

def pyReprJ : JValue → Str
  | .jstr s => '\'' :: s ++ ['\'']
  | v => pyStrJ v

def pyReprJList : List JValue → Str
  | [] => []
  | [x] => pyReprJ x
  | x :: xs => pyReprJ x ++ ", ".toList ++ pyReprJList xs

def pyReprJObj : List (Str × JValue) → Str
  | [] => []
  | [(k, x)] => '\'' :: k ++ "': ".toList ++ pyReprJ x
  | (k, x) :: xs => '\'' :: k ++ "': ".toList ++ pyReprJ x ++ ", ".toList ++ pyReprJObj xs
end

/-- Embedding of `normalize_description`: falsy field to `''`, strings as-is, dicts via
ADF extraction, anything else through `str`.  `descField = none` models a
missing key (`.get` returned `None`). -/
def normalize_description (descField : Option JValue) : Except PyErr Str :=
  match descField with
  | none => .ok []
  | some v =>
    if !pythonTruthy v then .ok []
    else
      match v with
      | .jstr s => .ok s
      | .jobj _ => extract_text_from_adf v
      | _ => .ok (pyStrJ v)

/-- Model of `epic_json.get('fields', \x7b\x7d).get('description')`. -/
def getDescField (epic : JValue) : Except PyErr (Option JValue) :=
  match epic with
  | .jobj m =>
    match (alistGet "fields".toList m).getD (.jobj []) with
    | .jobj fm => .ok (alistGet "description".toList fm)
    | _ => .error .attributeError
  | _ => .error .attributeError

/-- Model of `url.endswith(('.json', '.yaml', '.yml'))`. -/
def hasSpecExt (url : Str) : Bool :=
  pyEndsWith url ".json".toList || pyEndsWith url ".yaml".toList ||
    pyEndsWith url ".yml".toList

/-- URL candidates of `fetch_openapi_spec`: the URL itself, plus `.json`
and `.yaml` variants when it has no recognised extension. -/
def urlsToTry (url : Str) : List Str :=
  url ::
    (if hasSpecExt url then []
     else [url ++ ".json".toList, url ++ ".yaml".toList])

/-- The candidate loop of `fetch_openapi_spec`, instrumented with the list
of URLs actually attempted.  `http` models `requests.get` (`none` is any
request/HTTP failure); `pyaml` models `yaml.safe_load` (`none` is a parse
error).  A body is parsed as JSON first, then as YAML; any failure of one
candidate advances to the next. -/
def fetchLoop (http : Str → Option Str) (pyaml : Str → Option JValue) :
    List Str → Option JValue × List Str
  | [] => (none, [])
  | u :: rest =>
    match http u with
    | none =>
      let (r, t) := fetchLoop http pyaml rest
      (r, u :: t)
    | some body =>
      match jsonLoads body with
      | some spec => (some spec, [u])
      | none =>
        match pyaml body with
        | some spec => (some spec, [u])
        | none =>
          let (r, t) := fetchLoop http pyaml rest
          (r, u :: t)

/-- Success of one candidate URL: the fetch succeeds and the body parses
as JSON or as YAML. -/
def candSucc (http : Str → Option Str) (pyaml : Str → Option JValue)
    (u : Str) : Bool :=
  match http u with
  | none => false
  | some body => (jsonLoads body).isSome || (pyaml body).isSome

/-- The document a successful candidate yields: the JSON parse when it
succeeds, otherwise the YAML parse. -/
def candVal (http : Str → Option Str) (pyaml : Str → Option JValue)
    (u : Str) : Option JValue :=
  match http u with
  | none => none
  | some body =>
    match jsonLoads body with
    | some s => some s
    | none => pyaml body

/-- Embedding of `fetch_openapi_spec`: result of the candidate loop. -/
def fetch_openapi_spec (http : Str → Option Str) (pyaml : Str → Option JValue)
    (url : Str) : Option JValue :=
  (fetchLoop http pyaml (urlsToTry url)).1

/-- The URLs `fetch_openapi_spec` actually attempts, in order. -/
def fetchAttempts (http : Str → Option Str) (pyaml : Str → Option JValue)
    (url : Str) : List Str :=
  (fetchLoop http pyaml (urlsToTry url)).2

/-- Lines 39-64 of `extract_contract`: build the contract dictionary from
the normalized description. -/
def contractFromDesc (http : Str → Option Str) (pyaml : Str → Option JValue)
    (fetchOpenapi : Bool) (desc : Str) : JValue :=
  if desc.isEmpty then .jobj [("description".toList, .jstr [])]
  else
    match extract_openapi_url desc with
    | some url =>
      if fetchOpenapi then
        match fetch_openapi_spec http pyaml url with
        | some spec =>
          if pythonTruthy spec then
            .jobj [("openapi_url".toList, .jstr url), ("openapi_spec".toList, spec)]
          else .jobj [("openapi_url".toList, .jstr url)]
        | none => .jobj [("openapi_url".toList, .jstr url)]
      else .jobj [("openapi_url".toList, .jstr url)]
    | none =>
      match extract_endpoints desc with
      | [] => .jobj [("description".toList, .jstr desc)]
      | eps =>
        .jobj [("endpoints".toList,
          .jarr (eps.map fun ep =>
            .jobj [("method".toList, .jstr ep.1), ("path".toList, .jstr ep.2)]))]

/-- Embedding of `extract_contract`: normalize the description and resolve the contract. -/
def extract_contract (http : Str → Option Str) (pyaml : Str → Option JValue)
    (fetchOpenapi : Bool) (epic : JValue) : Except PyErr JValue := do
  let descField ← getDescField epic
  let desc ← normalize_description descField
  .ok (contractFromDesc http pyaml fetchOpenapi desc)

/-! ## Shared LLM-response post-processing (`gating.py`, `reviewer.py`) -/

/-- The response normalisation shared by `check_epic_eligibility` and
`review_and_fix_tests`: strip surrounding whitespace, then strip backticks
and newlines from both ends when the text both starts and ends with
three backticks. -/
def normalizeResp (r : Str) : Str :=
  let content := pyStrip r
  if "```".toList.isPrefixOf content && "```".toList.isSuffixOf content then
    pyStripChars ['`', '\n'] content
  else content

/-- Python `d.get(k, default)` on a dict; `AttributeError` otherwise. -/
def pyGetD (d : JValue) (k : Str) (default : JValue) : Except PyErr JValue :=
  match d with
  | .jobj m => .ok ((alistGet k m).getD default)
  | _ => .error .attributeError

/-- Python slicing `v[:n]`: works on strings and lists, `TypeError` on
anything else (`None`, numbers, booleans, dicts are not subscriptable). -/
def pySliceJ (v : JValue) (n : Nat) : Except PyErr JValue :=
  match v with
  | .jstr s => .ok (.jstr (s.take n))
  | .jarr items => .ok (.jarr (items.take n))
  | _ => .error .typeError

/-! ## `gating.py` -/

/-- Lines 28-29 of `_build_gate_prompt`, given the already-normalized
description: `openapi_url = contract.get('openapi_url') or
extract_openapi_url(description)`, then `bool(openapi_url)` and
`bool(contract.get('endpoints'))`. -/
def gateSignalsFromDesc (contract : JValue) (description : Str) :
    Except PyErr (Bool × Bool) := do
  let urlVal ← pyGet contract "openapi_url".toList
  let epVal ← pyGet contract "endpoints".toList
  let urlFromDetect :=
    match extract_openapi_url description with
    | some u => !u.isEmpty
    | none => false
  .ok (pythonTruthy urlVal || urlFromDetect, pythonTruthy epVal)

/-- The two boolean signals interpolated into the eligibility-gate prompt
(`_build_gate_prompt` lines 23-29): `openapi_url_present` and
`endpoints_listed`.  The rest of the prompt is fixed text plus the issue
key/summary/description and is not needed by any claim. -/
def gateSignals (epic contract : JValue) : Except PyErr (Bool × Bool) := do
  let descField ← getDescField epic
  let description ←
    match descField with
    | some v => if pythonTruthy v then normalize_description (some v) else .ok ([] : Str)
    | none => .ok ([] : Str)
  gateSignalsFromDesc contract description

/-- Lines 73-79 of `check_epic_eligibility`: normalise the misspelled
`should_prcodeed` key, then build the result mapping.  The reason is kept
as a `JValue` because `v[:500]` on a list value yields a list. -/
def gateFinal (data : JValue) : Except PyErr (Bool × JValue) := do
  let hasMisspelled ← pyKeyIn "should_prcodeed".toList data
  let data' ←
    if hasMisspelled then
      match data with
      | .jobj m =>
        -- data['should_proceed'] = data.pop('should_prcodeed')
        let v := (alistGet "should_prcodeed".toList m).getD .jnull
        pure (JValue.jobj
          (alistSet "should_proceed".toList v (alistRemove "should_prcodeed".toList m)))
      | .jarr _ => .error .typeError        -- list.pop expects an integer
      | .jstr _ => .error .attributeError   -- str has no `.pop`
      | _ => .error .typeError
    else pure data
  let spv ← pyGet data' "should_proceed".toList
  let rv ← pyGetD data' "reason".toList (.jstr [])
  let rsliced ← pySliceJ rv 500
  .ok (pythonTruthy spv, rsliced)

/-- Embedding of `check_epic_eligibility` lines 61-79, as a function of the oracle's
message text: normalise, parse as JSON with a textual yes/no fallback,
then post-process. -/
def checkEligResult (r : Str) : Except PyErr (Bool × JValue) :=
  let content := normalizeResp r
  let data : JValue :=
    match jsonLoads content with
    | some d => d
    | none =>
      let lowered := pyLower content
      let should := pyContains lowered "true".toList || pyContains lowered "yes".toList
      .jobj [("should_proceed".toList, .jbool should),
             ("reason".toList, .jstr (pyTake 200 content))]
  gateFinal data

/-! ## `reviewer.py` -/

/-- Embedding of `review_and_fix_tests` lines 90-99, as a function of the oracle's
message text.  Returns `(review_json, updated_files)`. -/
def reviewResult (r : Str) : Except PyErr (JValue × JValue) :=
  let content := normalizeResp r
  let data : JValue :=
    match jsonLoads content with
    | some d => d
    | none =>
      .jobj [("score".toList, .jnum "0.0".toList),
             ("syntax_ok".toList, .jbool false),
             ("coverage_score".toList, .jnum "0.0".toList),
             ("criteria_score".toList, .jnum "0.0".toList),
             ("notes".toList, .jstr (pyTake 4000 content))]
  do
    -- updated_files = data.get("files") or {}
    let fv ← pyGet data "files".toList
    .ok (data, if pythonTruthy fv then fv else .jobj [])

/-! ## `generator.py`: `parse_test_files` -/

/-- String-keyed dict with Python `d[k] = v` update semantics. -/
def dictSet (k v : Str) : List (Str × Str) → List (Str × Str)
  | [] => [(k, v)]
  | (k', v') :: rest =>
    if k' = k then (k', v) :: rest else (k', v') :: dictSet k v rest

/-- First-occurrence lookup in a string-keyed dict. -/
def dictGet (k : Str) : List (Str × Str) → Option Str
  | [] => none
  | (k', v) :: rest => if k' = k then some v else dictGet k rest

/-- Split `cs` at the first occurrence of `---ENDTESTFILE---`
(the lazy `(?P<content>.*?)(?=---ENDTESTFILE---)` group): returns the text
before the marker and the remainder starting at the marker (the lookahead
consumes nothing). -/
def splitAtEndMarker : Str → Option (Str × Str)
  | [] => none
  | c :: rest =>
    if "---ENDTESTFILE---".toList.isPrefixOf (c :: rest) then some ([], c :: rest)
    else (splitAtEndMarker rest).map fun pc => (c :: pc.1, pc.2)

/-- Lazy exploration of `(?P<path>.*?)\s*---\n` followed by the content
group: `acc` holds the path matched so far (reversed).  At each position the
inner `\s*` greedily takes the maximal whitespace run (a shorter run cannot
be followed by the literal `---`, which starts with a non-whitespace
character), then the literal `---\n` and the content lookahead are tried;
on failure the lazy path group grows by one character. -/
def tfPathLoop (acc : Str) (rest : Str) : Option (Str × Str × Str) :=
  let afterRun := rest.dropWhile pyIsWs
  let attempt :=
    if "---\n".toList.isPrefixOf afterRun then
      match splitAtEndMarker (afterRun.drop 4) with
      | some (content, after) => some (acc.reverse, content, after)
      | none => none
    else none
  match attempt with
  | some res => some res
  | none =>
    match rest with
    | [] => none
    | c :: t => tfPathLoop (c :: acc) t

/-- One attempt of the `parse_test_files` regex at the current position:
the literal `---TESTFILE:`, the greedy leading `\s*`, then the lazy
path/content exploration.  Returns `(path, content, remainder)`, the
remainder starting at the end marker (which the lookahead does not consume). -/
def tfMatchOne (cs : Str) : Option (Str × Str × Str) :=
  if "---TESTFILE:".toList.isPrefixOf cs then
    tfPathLoop [] ((cs.drop 12).dropWhile pyIsWs)
  else none

/-- Model of the `re.finditer` scan for `parse_test_files`: try a match at each
position; on success continue after the match, otherwise advance one
character.  `fuel` bounds the number of steps; every step consumes at
least one character, so `text.length + 1` never truncates. -/
def findBlocks : Nat → Str → List (Str × Str)
  | 0, _ => []
  | fuel + 1, cs =>
    match tfMatchOne cs with
    | some (p, c, rest) => (p, c) :: findBlocks fuel rest
    | none =>
      match cs with
      | [] => []
      | _ :: t => findBlocks fuel t

/-- The delimited blocks found in a response text, in match order. -/
def testFileBlocks (text : Str) : List (Str × Str) :=
  findBlocks (text.length + 1) text

/-- The `files` dict built by the `for match in re.finditer(...)` loop:
`files[path.strip()] = content.rstrip()` for every block, in match order. -/
def parsedFiles (text : Str) : List (Str × Str) :=
  (testFileBlocks text).foldl
    (fun acc pc => dictSet (pyStrip pc.1) (pyRstrip pc.2) acc) []

/-- Embedding of `parse_test_files`: every block becomes an artifact; with no blocks the
whole response is stored under `generated_tests.txt`. -/
def parse_test_files (text : Str) : List (Str × Str) :=
  if (parsedFiles text).isEmpty then [("generated_tests.txt".toList, text)]
  else parsedFiles text

/-! ## `orchestrator.py`: review-threshold refinement and the diff records -/

/-- Line 149 of `process_epic`: the review average.  Scores are modelled as
rationals; the expression is the code's
`(coverage + criteria + (1.0 if syntax_ok else 0.0)) / 3.0`. -/
def reviewAverage (coverage criteria : ℚ) (syntaxOk : Bool) : ℚ :=
  (coverage + criteria + (if syntaxOk then 1 else 0)) / 3

/-- Line 151: the refinement stage runs iff `avg <= threshold`. -/
def refinementTriggered (coverage criteria : ℚ) (syntaxOk : Bool)
    (threshold : ℚ) : Bool :=
  reviewAverage coverage criteria syntaxOk ≤ threshold

/-- One record of the refinement diff (lines 162-179). -/
inductive RefineChange where
  | added (path : Str)
  | modified (path beforeSha afterSha : Str) (beforeLines afterLines : Nat)
  deriving DecidableEq, Repr

/-- The path a change record is about. -/
def RefineChange.chPath : RefineChange → Str
  | .added p => p
  | .modified p _ _ _ _ => p

/-- Lines 162-179 of `process_epic`: walk the post-refinement files in
insertion order; a path absent before refinement and produced by the
refiner is `added`; a path whose content changed is `modified`, carrying
both content hashes (`sha` models `hashlib.sha256(...).hexdigest()`) and
both `len(content.splitlines())` counts; other paths produce no record. -/
def refineChangeOf (sha : Str → Str) (filesBefore refined : List (Str × Str))
    (pa : Str × Str) : Option RefineChange :=
  match dictGet pa.1 filesBefore with
  | none =>
    if (dictGet pa.1 refined).isSome then some (.added pa.1) else none
  | some before =>
    if pa.2 ≠ before then
      some (.modified pa.1 (sha before) (sha pa.2)
        (pySplitlines before).length (pySplitlines pa.2).length)
    else none

def refineChanges (sha : Str → Str) (filesBefore files refined : List (Str × Str)) :
    List RefineChange :=
  files.filterMap (refineChangeOf sha filesBefore refined)

/-- Python `dict.update` (a left fold of `d[k] = v` assignments). -/
def dictUpdate (d : List (Str × Str)) (upd : List (Str × Str)) : List (Str × Str) :=
  upd.foldl (fun acc kv => dictSet kv.1 kv.2 acc) d

/-- The artifact a path maps to under "last block wins": the content of the
last well-formed block declaring that (stripped) path, right-stripped. -/
def lastBlockContent (p : Str) (blocks : List (Str × Str)) : Option Str :=
  ((blocks.map fun pc => (pyStrip pc.1, pyRstrip pc.2)).reverse.find?
    fun pc => decide (pc.1 = p)).map Prod.snd

/-- A contract dictionary is exactly one variant: URL-only, URL plus
fetched document, endpoint list, or plain description. -/
def exactlyOneVariant (c : JValue) : Bool :=
  match c with
  | .jobj m =>
    let ks := m.map Prod.fst
    decide (ks = ["openapi_url".toList]) ||
    decide (ks = ["openapi_url".toList, "openapi_spec".toList]) ||
    decide (ks = ["endpoints".toList]) ||
    decide (ks = ["description".toList])
  | _ => false

def reasonShapeOk (m : List (Str × JValue)) : Bool :=
  match alistGet "reason".toList m with
  | none => true
  | some (.jstr _) => true
  | some _ => false

/-- Specification-side reading of one endpoint line: if the stripped line
starts (case-insensitively) with an HTTP method and a space, the pair is
(first whitespace-delimited token uppercased, second token). -/
def specLineEndpoint (rawLine : Str) : Option (Str × Str) :=
  let l := pyStrip rawLine
  if lineStartsWithMethod (pyUpper l) then
    some (pyUpper ((pySplitWs l).getD 0 []), (pySplitWs l).getD 1 [])
  else none

/-! ## Helper lemmas -/

lemma dictGet_dictSet (k p v : Str) (d : List (Str × Str)) :
    dictGet p (dictSet k v d) = if k = p then some v else dictGet p d := by
  induction d with
  | nil => by_cases h : k = p <;> simp [dictSet, dictGet, h]
  | cons e rest ih =>
    obtain ⟨k', v'⟩ := e
    by_cases hk : k' = k
    · subst hk
      by_cases hp : k' = p <;> simp [dictSet, dictGet, hp]
    · by_cases hp : k' = p
      · subst hp
        have : ¬ k = k' := fun h => hk h.symm
        simp [dictSet, dictGet, hk, this]
      · simp [dictSet, dictGet, hk, hp, ih]


/-! ## C2: review-average refinement threshold -/

/-- C2.  The Orchestrator triggers the refinement stage iff
`(coverage + criteria + (1 if syntax_ok else 0)) / 3 <= threshold`; in
particular an average exactly equal to the threshold triggers refinement
(the comparison is `<=`, not `<`). -/
theorem C2_refinement_threshold (c r t : ℚ) (s : Bool) :
    (refinementTriggered c r s t = true ↔
      (c + r + (if s then (1 : ℚ) else 0)) / 3 ≤ t)
    ∧ ((c + r + (if s then (1 : ℚ) else 0)) / 3 = t →
      refinementTriggered c r s t = true) := by
  constructor
  · simp [refinementTriggered, reviewAverage]
  · intro h
    simp [refinementTriggered, reviewAverage, h]

/-- Witness for C2 at the exact boundary: coverage 0.7, criteria 0.8,
syntax ok, threshold 5/6 = (0.7+0.8+1)/3. -/
theorem C2_refinement_threshold_witness :
    refinementTriggered (7/10) (8/10) true (5/6) = true :=
  (C2_refinement_threshold (7/10) (8/10) (5/6) true).2 (by norm_num)

/-! ## C5: refinement diff records -/

/-- A change record produced for an entry carries that entry's path. -/
lemma refineChangeOf_path (sha : Str → Str)
    (filesBefore refined : List (Str × Str)) (pa : Str × Str)
    (rec : RefineChange) (h : refineChangeOf sha filesBefore refined pa = some rec) :
    rec.chPath = pa.1 := by
  unfold refineChangeOf at h
  rcases hq : dictGet pa.1 filesBefore with _ | before <;> rw [hq] at h <;>
    dsimp only at h
  · by_cases hr : (dictGet pa.1 refined).isSome
    · rw [if_pos hr] at h
      cases h
      rfl
    · rw [if_neg hr] at h
      cases h
  · by_cases hb : pa.2 ≠ before
    · rw [if_pos hb] at h
      cases h
      rfl
    · rw [if_neg hb] at h
      cases h

/-- Two entries of a dict with `Nodup` keys and the same key are equal. -/
lemma nodup_keys_val_eq {l : List (Str × Str)} (hnd : (l.map Prod.fst).Nodup)
    {p x y : Str} (hx : (p, x) ∈ l) (hy : (p, y) ∈ l) : x = y := by
  induction l with
  | nil => simp at hx
  | cons e rest ih =>
    obtain ⟨k, v⟩ := e
    simp only [List.map_cons, List.nodup_cons] at hnd
    rcases List.mem_cons.1 hx with hx1 | hx1 <;>
      rcases List.mem_cons.1 hy with hy1 | hy1
    · obtain ⟨_, hxv⟩ := Prod.mk.inj hx1
      obtain ⟨_, hyv⟩ := Prod.mk.inj hy1
      rw [hxv, hyv]
    · obtain ⟨hp, _⟩ := Prod.mk.inj hx1
      exact absurd (hp ▸ List.mem_map_of_mem Prod.fst hy1) hnd.1
    · obtain ⟨hp, _⟩ := Prod.mk.inj hy1
      exact absurd (hp ▸ List.mem_map_of_mem Prod.fst hx1) hnd.1
    · exact ih hnd.2 hx1 hy1

/-- Unchanged paths produce no change record. -/
lemma refineChanges_unchanged (sha : Str → Str)
    (filesBefore files refined : List (Str × Str)) (p a : Str)
    (hnd : (files.map Prod.fst).Nodup)
    (hmem : (p, a) ∈ files) (hbefore : dictGet p filesBefore = some a) :
    ∀ rec ∈ refineChanges sha filesBefore files refined, rec.chPath ≠ p := by
  intro rec hrec hpath
  obtain ⟨pa, hpa, hf⟩ := List.mem_filterMap.1 hrec
  have hq : pa.1 = p := (refineChangeOf_path sha filesBefore refined pa rec hf) ▸ hpath
  obtain ⟨q, b⟩ := pa
  simp only at hq
  subst hq
  have hab : b = a := nodup_keys_val_eq hnd hpa hmem
  subst hab
  unfold refineChangeOf at hf
  simp [hbefore] at hf

/-- C5.  For `before = {"a.txt": "x"}` and refiner output
`{"a.txt": "y", "b.txt": "z"}` (so the post-refinement set is
`{"a.txt": "y", "b.txt": "z"}`), the diff is exactly one `modified` record
for `a.txt` — carrying both content hashes and both line counts — followed
by one `added` record for `b.txt`; and in general a path whose content is
unchanged produces no record. -/
theorem C5_refine_diff (sha : Str → Str) :
    (refineChanges sha [("a.txt".toList, "x".toList)]
        (dictUpdate [("a.txt".toList, "x".toList)]
          [("a.txt".toList, "y".toList), ("b.txt".toList, "z".toList)])
        [("a.txt".toList, "y".toList), ("b.txt".toList, "z".toList)]
      = [.modified "a.txt".toList (sha "x".toList) (sha "y".toList) 1 1,
         .added "b.txt".toList])
    ∧ (∀ (filesBefore files refined : List (Str × Str)) (p a : Str),
        (files.map Prod.fst).Nodup → (p, a) ∈ files →
        dictGet p filesBefore = some a →
        ∀ rec ∈ refineChanges sha filesBefore files refined, rec.chPath ≠ p) :=
  ⟨rfl, fun filesBefore files refined p a hnd hmem hb =>
    refineChanges_unchanged sha filesBefore files refined p a hnd hmem hb⟩

/-- Witness for C5's general clause at a concrete instance: with an
unchanged `c.txt` present on both sides, no record mentions it. -/
theorem C5_refine_diff_witness :
    ∀ rec ∈ refineChanges (fun s => s)
        [("a.txt".toList, "x".toList), ("c.txt".toList, "w".toList)]
        [("a.txt".toList, "y".toList), ("c.txt".toList, "w".toList)]
        [("a.txt".toList, "y".toList)],
      rec.chPath ≠ "c.txt".toList :=
  (C5_refine_diff (fun s => s)).2
    [("a.txt".toList, "x".toList), ("c.txt".toList, "w".toList)]
    [("a.txt".toList, "y".toList), ("c.txt".toList, "w".toList)]
    [("a.txt".toList, "y".toList)]
    "c.txt".toList "w".toList (by decide) (by decide) (by decide)

/-! ## C6: generation-output parsing -/

lemma dictSet_ne_nil (k v : Str) (d : List (Str × Str)) : dictSet k v d ≠ [] := by
  cases d with
  | nil => simp [dictSet]
  | cons e rest =>
    obtain ⟨k', v'⟩ := e
    by_cases h : k' = k <;> simp [dictSet, h]

lemma foldl_dictSet_ne_nil (l : List (Str × Str)) (init : List (Str × Str))
    (h : init ≠ [] ∨ l ≠ []) :
    l.foldl (fun acc pc => dictSet pc.1 pc.2 acc) init ≠ [] := by
  induction l generalizing init with
  | nil =>
    simp only [List.foldl_nil]
    rcases h with h | h
    · exact h
    · simp at h
  | cons x xs ih =>
    simp only [List.foldl_cons]
    exact ih (dictSet x.1 x.2 init) (Or.inl (dictSet_ne_nil x.1 x.2 init))

lemma dictGet_foldl_dictSet (p : Str) (l : List (Str × Str))
    (init : List (Str × Str)) :
    dictGet p (l.foldl (fun acc pc => dictSet pc.1 pc.2 acc) init) =
      match l.reverse.find? (fun pc => decide (pc.1 = p)) with
      | some pc => some pc.2
      | none => dictGet p init := by
  induction l generalizing init with
  | nil => simp
  | cons x xs ih =>
    simp only [List.foldl_cons, List.reverse_cons, ih, List.find?_append]
    rcases hfind : xs.reverse.find? (fun pc => decide (pc.1 = p)) with _ | pc
    · by_cases hx : x.1 = p
      · simp [hfind, List.find?, hx, dictGet_dictSet]
      · simp [hfind, List.find?, hx, dictGet_dictSet]
    · simp [hfind]


/-- C6.  `parse_test_files` never returns an empty artifact mapping;
with zero well-formed `---TESTFILE:`/`---ENDTESTFILE---` blocks the whole
raw response is stored under the fixed name `generated_tests.txt`; and
otherwise every path maps to the content of the last block declaring it
(later duplicates win). -/
theorem C6_parse_files_blocks (text : Str) :
    parse_test_files text ≠ []
    ∧ (testFileBlocks text = [] →
        parse_test_files text = [("generated_tests.txt".toList, text)])
    ∧ (testFileBlocks text ≠ [] → ∀ p,
        dictGet p (parse_test_files text) = lastBlockContent p (testFileBlocks text)) := by
  have hfold : parsedFiles text =
      ((testFileBlocks text).map fun pc => (pyStrip pc.1, pyRstrip pc.2)).foldl
        (fun acc pc => dictSet pc.1 pc.2 acc) [] := by
    rw [parsedFiles, List.foldl_map]
  refine ⟨?_, ?_, ?_⟩
  · unfold parse_test_files
    split
    · simp
    · next hne => simpa using hne
  · intro hb
    unfold parse_test_files parsedFiles
    rw [hb]
    simp
  · intro hb p
    have hne : ((testFileBlocks text).map fun pc => (pyStrip pc.1, pyRstrip pc.2)) ≠ [] := by
      simpa using hb
    have hfne := foldl_dictSet_ne_nil _ [] (Or.inr hne)
    rw [← hfold] at hfne
    unfold parse_test_files
    rw [if_neg (by simpa using hfne)]
    rw [hfold, dictGet_foldl_dictSet]
    unfold lastBlockContent
    rcases h2 : ((testFileBlocks text).map fun pc => (pyStrip pc.1, pyRstrip pc.2)).reverse.find?
        (fun pc => decide (pc.1 = p)) with _ | pc
    · simp [h2, dictGet]
    · simp [h2]

/-- Witness for C6's last-wins clause on a response with a duplicated
path: `a.py` maps to the later block's content. -/
theorem C6_parse_files_blocks_witness :
    dictGet "a.py".toList (parse_test_files
      "---TESTFILE: a.py---\nprint(1)\n---ENDTESTFILE---\n---TESTFILE: a.py---\nprint(2)\n---ENDTESTFILE---".toList) =
    lastBlockContent "a.py".toList (testFileBlocks
      "---TESTFILE: a.py---\nprint(1)\n---ENDTESTFILE---\n---TESTFILE: a.py---\nprint(2)\n---ENDTESTFILE---".toList) :=
  (C6_parse_files_blocks _).2.2 (by decide) "a.py".toList

/-! ## C7: URL precedence over endpoint lines -/

lemma urlMatchAt_head {cs : Str} {n : Nat} (h : urlMatchAt cs = some n) :
    1 ≤ n ∧ ∃ c cs', cs = c :: cs' ∧ c.toLower = 'h' := by
  unfold urlMatchAt at h
  by_cases h8 : ciStarts "https://".toList cs
  · rw [if_pos h8] at h
    rcases hb : urlBodyLoop (cs.drop 8) with _ | k <;> rw [hb] at h
    · exact absurd h (by simp)
    · simp only [Option.map_some', Option.some.injEq] at h
      cases cs with
      | nil => simp [ciStarts] at h8
      | cons c cs' =>
        refine ⟨by omega, c, cs', rfl, ?_⟩
        have h2 : ((c.toLower = 'h') && ciStarts "ttps://".toList cs') = true := by
          simpa [ciStarts] using h8
        simpa using (Bool.and_elim_left h2)
  · rw [if_neg h8] at h
    by_cases h7 : ciStarts "http://".toList cs
    · rw [if_pos h7] at h
      rcases hb : urlBodyLoop (cs.drop 7) with _ | k <;> rw [hb] at h
      · exact absurd h (by simp)
      · simp only [Option.map_some', Option.some.injEq] at h
        cases cs with
        | nil => simp [ciStarts] at h7
        | cons c cs' =>
          refine ⟨by omega, c, cs', rfl, ?_⟩
          have h2 : ((c.toLower = 'h') && ciStarts "ttp://".toList cs') = true := by
            simpa [ciStarts] using h7
          simpa using (Bool.and_elim_left h2)
    · rw [if_neg h7] at h
      simp at h

lemma urlSearch_head {text seg : Str} (h : urlSearch text = some seg) :
    ∃ c s', seg = c :: s' ∧ c.toLower = 'h' := by
  induction text with
  | nil => simp [urlSearch] at h
  | cons c rest ih =>
    unfold urlSearch at h
    rcases hm : urlMatchAt (c :: rest) with _ | n <;> rw [hm] at h
    · exact ih h
    · obtain ⟨hn, c', cs', hcs, hc⟩ := urlMatchAt_head hm
      obtain ⟨hc1, _⟩ := List.cons.inj hcs
      subst hc1
      cases h
      cases n with
      | zero => omega
      | succ n => exact ⟨c, List.take n rest, rfl, hc⟩

lemma extract_openapi_url_ne_nil {text u : Str}
    (h : extract_openapi_url text = some u) : u ≠ [] := by
  unfold extract_openapi_url at h
  by_cases he : text.isEmpty
  · rw [if_pos he] at h
    cases h
  · rw [if_neg he] at h
    rcases hs : urlSearch text with _ | seg <;> rw [hs] at h
    · cases h
    · simp only [Option.map_some'] at h
      obtain ⟨c, s', hseg, hc⟩ := urlSearch_head hs
      subst hseg
      cases h
      have hcne : (['/'] : List Char).contains c = false := by
        have : c ≠ '/' := by
          intro hc'
          rw [hc'] at hc
          simp at hc
        simpa using this
      unfold pyRstripChars
      intro hnil
      rw [List.reverse_eq_nil_iff, List.dropWhile_eq_nil_iff] at hnil
      have := hnil c (by simp)
      rw [hcne] at this
      exact absurd this (by simp)

/-- C7.  Whenever the normalized description contains a
specification URL (in particular also when it contains endpoint lines),
contract resolution returns a URL-based variant: the contract carries
`openapi_url` and never `endpoints` — endpoint extraction is only
consulted when no URL is found. -/
theorem C7_url_takes_precedence (http : Str → Option Str)
    (pyaml : Str → Option JValue) (fetchOpenapi : Bool) (desc u : Str)
    (h1 : extract_openapi_url desc = some u)
    (h2 : extract_endpoints desc ≠ []) :
    ∃ m, contractFromDesc http pyaml fetchOpenapi desc = .jobj m
      ∧ alistGet "openapi_url".toList m = some (.jstr u)
      ∧ alistGet "endpoints".toList m = none := by
  have hdesc : desc.isEmpty = false := by
    cases desc with
    | nil => simp [extract_openapi_url] at h1
    | cons c rest => rfl
  unfold contractFromDesc
  rw [hdesc]
  simp only [Bool.false_eq_true, if_false, h1]
  cases fetchOpenapi with
  | false => exact ⟨_, rfl, rfl, rfl⟩
  | true =>
    rcases fetch_openapi_spec http pyaml u with _ | spec
    · exact ⟨_, rfl, rfl, rfl⟩
    · by_cases ht : pythonTruthy spec
      · simp only [ht, if_true]
        exact ⟨_, rfl, rfl, rfl⟩
      · simp only [ht, Bool.false_eq_true, if_false]
        exact ⟨_, rfl, rfl, rfl⟩

/-- Witness for C7 on a description holding both a spec URL and an
endpoint line. -/
theorem C7_url_takes_precedence_witness :
    ∃ m, contractFromDesc (fun _ => none) (fun _ => none) true
        "see https://a.b/swagger.json\nGET /u".toList = .jobj m
      ∧ alistGet "openapi_url".toList m = some (.jstr "https://a.b/swagger.json".toList)
      ∧ alistGet "endpoints".toList m = none :=
  C7_url_takes_precedence (fun _ => none) (fun _ => none) true
    "see https://a.b/swagger.json\nGET /u".toList
    "https://a.b/swagger.json".toList (by decide) (by decide)

/-! ## C4: the fetch fallback chain -/

lemma fetchLoop_eq (http : Str → Option Str) (pyaml : Str → Option JValue)
    (l : List Str) :
    fetchLoop http pyaml l =
      ((l.dropWhile fun u => !candSucc http pyaml u).head?.bind (candVal http pyaml),
       (l.takeWhile fun u => !candSucc http pyaml u) ++
         (l.dropWhile fun u => !candSucc http pyaml u).take 1) := by
  induction l with
  | nil => simp [fetchLoop]
  | cons u rest ih =>
    rcases hh : http u with _ | body
    · have hcs : candSucc http pyaml u = false := by simp [candSucc, hh]
      simp [fetchLoop, hh, ih, List.dropWhile_cons, List.takeWhile_cons, hcs]
    · rcases hj : jsonLoads body with _ | spec
      · rcases hy : pyaml body with _ | spec
        · have hcs : candSucc http pyaml u = false := by simp [candSucc, hh, hj, hy]
          simp [fetchLoop, hh, hj, hy, ih, List.dropWhile_cons, List.takeWhile_cons, hcs]
        · have hcs : candSucc http pyaml u = true := by simp [candSucc, hh, hy]
          have hcv : candVal http pyaml u = some spec := by simp [candVal, hh, hj, hy]
          simp [fetchLoop, hh, hj, hy, List.dropWhile_cons, List.takeWhile_cons, hcs, hcv]
      · have hcs : candSucc http pyaml u = true := by simp [candSucc, hh, hj]
        have hcv : candVal http pyaml u = some spec := by simp [candVal, hh, hj]
        simp [fetchLoop, hh, hj, List.dropWhile_cons, List.takeWhile_cons, hcs, hcv]

/-- C4.  The fetch fallback chain: a URL with a recognised extension is
the only candidate; otherwise the candidates are the verbatim URL, then
`url + ".json"`, then `url + ".yaml"`, in that order.  The attempted list
stops at the first candidate whose response body deserialises (failures
only advance the chain), the returned document is that candidate's value
with JSON parsing preferred over YAML, and when every candidate fails the
resolver returns the URL-only contract without raising. -/
theorem C4_fetch_fallback_chain (http : Str → Option Str)
    (pyaml : Str → Option JValue) (url : Str) :
    (hasSpecExt url = true → urlsToTry url = [url])
    ∧ (hasSpecExt url = false →
        urlsToTry url = [url, url ++ ".json".toList, url ++ ".yaml".toList])
    ∧ (fetchAttempts http pyaml url =
        ((urlsToTry url).takeWhile fun u => !candSucc http pyaml u) ++
          ((urlsToTry url).dropWhile fun u => !candSucc http pyaml u).take 1)
    ∧ (fetch_openapi_spec http pyaml url =
        ((urlsToTry url).dropWhile fun u => !candSucc http pyaml u).head?.bind
          (candVal http pyaml))
    ∧ (∀ u body s, http u = some body → jsonLoads body = some s →
        candVal http pyaml u = some s)
    ∧ ((∀ u ∈ urlsToTry url, candSucc http pyaml u = false) →
        fetch_openapi_spec http pyaml url = none
        ∧ fetchAttempts http pyaml url = urlsToTry url
        ∧ ∀ desc, extract_openapi_url desc = some url →
            contractFromDesc http pyaml true desc =
              .jobj [("openapi_url".toList, .jstr url)]) := by
  refine ⟨?_, ?_, ?_, ?_, ?_, ?_⟩
  · intro h
    simp [urlsToTry, h]
  · intro h
    simp [urlsToTry, h]
  · rw [fetchAttempts, fetchLoop_eq]
  · rw [fetch_openapi_spec, fetchLoop_eq]
  · intro u body s hh hj
    simp [candVal, hh, hj]
  · intro hall
    have hdrop : ((urlsToTry url).dropWhile fun u => !candSucc http pyaml u) = [] := by
      rw [List.dropWhile_eq_nil_iff]
      intro u hu
      simp [hall u hu]
    have hfetch : fetch_openapi_spec http pyaml url = none := by
      rw [fetch_openapi_spec, fetchLoop_eq]
      simp [hdrop]
    refine ⟨hfetch, ?_, ?_⟩
    · rw [fetchAttempts, fetchLoop_eq]
      simp only [hdrop, List.take_nil, List.append_nil]
      rw [List.takeWhile_eq_self_iff]
      intro u hu
      simp [hall u hu]
    · intro desc h1
      have hdesc : desc.isEmpty = false := by
        cases desc with
        | nil => simp [extract_openapi_url] at h1
        | cons c rest => rfl
      unfold contractFromDesc
      rw [hdesc]
      simp [h1, hfetch]

/-- Witness for C4: with a network where every request fails and an
extension-free URL, all three candidates are attempted and the resolver
yields the URL-only contract. -/
theorem C4_fetch_fallback_chain_witness :
    fetch_openapi_spec (fun _ => none) (fun _ => none) "http://h/openapi".toList = none
    ∧ fetchAttempts (fun _ => none) (fun _ => none) "http://h/openapi".toList =
        urlsToTry "http://h/openapi".toList
    ∧ contractFromDesc (fun _ => none) (fun _ => none) true
        "see http://h/openapi now".toList =
        .jobj [("openapi_url".toList, .jstr "http://h/openapi".toList)] :=
  have h := (C4_fetch_fallback_chain (fun _ => none) (fun _ => none)
    "http://h/openapi".toList).2.2.2.2.2 (by decide)
  ⟨h.1, h.2.1, h.2.2 "see http://h/openapi now".toList (by decide)⟩

/-! ## C3: totality and exactly-one-variant of contract resolution -/


/-- C3 counterexample.  A malformed rich-document description whose
`text` node holds the number `5` makes `extract_contract` raise
`TypeError` (from `' '.join` in `extract_text_from_adf`), so resolution
does not return a Contract variant for every malformed value. -/
theorem C3_counterexample :
    extract_contract (fun _ => none) (fun _ => none) true
      (.jobj [("fields".toList, .jobj [("description".toList,
        .jobj [("text".toList, .jnum "5".toList)])])]) =
      .error .typeError := by decide

/-- C3 (amended).  Whenever description normalization succeeds — in
particular for absent, plain-text, and well-formed rich-document
descriptions — contract resolution returns exactly one Contract variant
without raising, and an absent or empty description yields the
description variant with the empty string.  (A malformed rich-document
`text` node is the one way normalization can raise; see the
counterexample.) -/
theorem C3_amended (http : Str → Option Str) (pyaml : Str → Option JValue)
    (fetchOpenapi : Bool) (epic : JValue) (df : Option JValue) (desc : Str)
    (h1 : getDescField epic = .ok df)
    (h2 : normalize_description df = .ok desc) :
    extract_contract http pyaml fetchOpenapi epic =
      .ok (contractFromDesc http pyaml fetchOpenapi desc)
    ∧ exactlyOneVariant (contractFromDesc http pyaml fetchOpenapi desc) = true
    ∧ (desc = [] → contractFromDesc http pyaml fetchOpenapi desc =
        .jobj [("description".toList, .jstr [])]) := by
  refine ⟨?_, ?_, ?_⟩
  · simp [extract_contract, h1, h2, Bind.bind, Except.bind]
  · unfold contractFromDesc
    by_cases hd : desc.isEmpty
    · rw [if_pos hd]
      rfl
    · rw [if_neg hd]
      rcases hu : extract_openapi_url desc with _ | u
      · simp only [hu]
        rcases he : extract_endpoints desc with _ | ⟨e, es⟩ <;> simp only [he] <;> rfl
      · simp only [hu]
        cases fetchOpenapi with
        | false => rfl
        | true =>
          rcases hf : fetch_openapi_spec http pyaml u with _ | spec <;> simp only [hf]
          · rfl
          · by_cases ht : pythonTruthy spec
            · rw [if_pos ht]
              rfl
            · rw [if_neg ht]
              rfl
  · intro h
    subst h
    rfl

/-- Witness for C3 on a well-formed rich-document description. -/
theorem C3_amended_witness :
    extract_contract (fun _ => none) (fun _ => none) true
      (.jobj [("fields".toList, .jobj [("description".toList,
        .jobj [("content".toList, .jarr [.jobj [("type".toList, .jstr "paragraph".toList),
          ("content".toList, .jarr [.jobj [("type".toList, .jstr "text".toList),
            ("text".toList, .jstr "GET /users".toList)]])]])])])]) =
      .ok (contractFromDesc (fun _ => none) (fun _ => none) true "GET /users\n".toList)
    ∧ exactlyOneVariant (contractFromDesc (fun _ => none) (fun _ => none) true
        "GET /users\n".toList) = true :=
  have h := C3_amended (fun _ => none) (fun _ => none) true
    (.jobj [("fields".toList, .jobj [("description".toList,
      .jobj [("content".toList, .jarr [.jobj [("type".toList, .jstr "paragraph".toList),
        ("content".toList, .jarr [.jobj [("type".toList, .jstr "text".toList),
          ("text".toList, .jstr "GET /users".toList)]])]])])])])
    (some (.jobj [("content".toList, .jarr [.jobj [("type".toList, .jstr "paragraph".toList),
      ("content".toList, .jarr [.jobj [("type".toList, .jstr "text".toList),
        ("text".toList, .jstr "GET /users".toList)]])]])]))
    "GET /users\n".toList (by decide) (by decide)
  ⟨h.1, h.2.1⟩

/-! ## C9: reviewer degradation on unparseable responses -/

/-- C9 counterexample.  The response `[1]` is parseable as JSON but is
not the expected shape; `review_and_fix_tests` does not degrade to the
zero-score result there — `data.get("files")` raises `AttributeError`
because the parsed value is a list. -/
theorem C9_counterexample :
    reviewResult "[1]".toList = .error .attributeError := by decide

/-- C9 (amended).  For every response whose normalized form (stripped
of surrounding whitespace and of wrapping code fences) is not parseable as
JSON, the review stage returns, without raising, score 0, `syntax_ok`
false, coverage 0, criteria 0, the normalized response truncated to 4000
characters as notes, and an empty corrections mapping.  (A response that
parses as JSON but is not an object instead raises; see the
counterexample.  The notes hold the normalized text, not the raw
response.) -/
theorem C9_amended (r : Str) (h : jsonLoads (normalizeResp r) = none) :
    reviewResult r = .ok (.jobj [("score".toList, .jnum "0.0".toList),
      ("syntax_ok".toList, .jbool false),
      ("coverage_score".toList, .jnum "0.0".toList),
      ("criteria_score".toList, .jnum "0.0".toList),
      ("notes".toList, .jstr (pyTake 4000 (normalizeResp r)))], .jobj [])
    ∧ (pyTake 4000 (normalizeResp r)).length ≤ 4000 := by
  constructor
  · simp only [reviewResult, h]
    rfl
  · exact List.length_take_le 4000 (normalizeResp r)

/-- Witness for C9 at the unparseable response `not json`. -/
theorem C9_amended_witness :
    reviewResult "not json".toList = .ok (.jobj [("score".toList, .jnum "0.0".toList),
      ("syntax_ok".toList, .jbool false),
      ("coverage_score".toList, .jnum "0.0".toList),
      ("criteria_score".toList, .jnum "0.0".toList),
      ("notes".toList, .jstr (pyTake 4000 (normalizeResp "not json".toList)))], .jobj [])
    ∧ (pyTake 4000 (normalizeResp "not json".toList)).length ≤ 4000 :=
  C9_amended "not json".toList (by decide)

/-! ## C10: eligibility-check result shape -/
lemma alistGet_set_self (k : Str) (v : JValue) (l : List (Str × JValue)) :
    alistGet k (alistSet k v l) = some v := by
  induction l with
  | nil => simp [alistSet, alistGet]
  | cons e rest ih =>
    obtain ⟨a, b⟩ := e
    by_cases ha : a = k
    · simp [alistSet, alistGet, ha]
    · simp [alistSet, alistGet, ha, ih]

lemma alistGet_set_ne (k k' : Str) (h : k' ≠ k) (v : JValue)
    (l : List (Str × JValue)) :
    alistGet k (alistSet k' v l) = alistGet k l := by
  induction l with
  | nil => simp [alistSet, alistGet, h]
  | cons e rest ih =>
    obtain ⟨a, b⟩ := e
    by_cases ha : a = k'
    · subst ha
      simp [alistSet, alistGet, h, ih]
    · by_cases hak : a = k
      · subst hak
        simp [alistSet, alistGet, ha, ih]
      · simp [alistSet, alistGet, ha, hak, ih]

lemma alistGet_remove_ne (k k' : Str) (h : k' ≠ k)
    (l : List (Str × JValue)) :
    alistGet k (alistRemove k' l) = alistGet k l := by
  induction l with
  | nil => simp [alistRemove, alistGet]
  | cons e rest ih =>
    obtain ⟨a, b⟩ := e
    simp only [alistRemove, ne_eq, decide_not] at ih ⊢
    by_cases ha : a = k'
    · subst ha
      simp [alistGet, h, List.filter_cons, ih]
    · by_cases hak : a = k
      · subst hak
        simp [alistGet, ha, List.filter_cons, ih]
      · simp [alistGet, ha, hak, List.filter_cons, ih]


lemma gateFinal_obj (m : List (Str × JValue)) (hr : reasonShapeOk m = true) :
    ∃ b s, gateFinal (.jobj m) = .ok (b, .jstr s) ∧ s.length ≤ 500
      ∧ (∀ v, alistGet "should_prcodeed".toList m = some v → b = pythonTruthy v)
      ∧ (alistGet "should_prcodeed".toList m = none →
          b = pythonTruthy ((alistGet "should_proceed".toList m).getD .jnull)) := by
  have hshape := hr
  unfold reasonShapeOk at hshape
  unfold gateFinal
  rcases hprc : alistGet "should_prcodeed".toList m with _ | v
  · simp only [pyKeyIn, hprc, Option.isSome_none, Bind.bind, Except.bind,
      Bool.false_eq_true, if_false, pure, Except.pure, pyGet, pyGetD]
    rcases hre : alistGet "reason".toList m with _ | rv
    · refine ⟨pythonTruthy ((alistGet "should_proceed".toList m).getD .jnull), [],
        ?_, by simp, ?_, ?_⟩
      · simp [hre, pySliceJ]
      · intro v hv
        exact Option.noConfusion hv
      · intro _
        rfl
    · rw [hre] at hshape
      rcases rv with _ | b0 | lex | s0 | items | ents <;> simp at hshape
      refine ⟨pythonTruthy ((alistGet "should_proceed".toList m).getD .jnull),
        s0.take 500, ?_, List.length_take_le 500 s0, ?_, ?_⟩
      · simp [hre, pySliceJ]
      · intro v hv
        exact Option.noConfusion hv
      · intro _
        rfl
  · simp only [pyKeyIn, hprc, Option.isSome_some, Bind.bind, Except.bind,
      if_true, pure, Except.pure, pyGet, pyGetD, Option.getD_some]
    have hsp : alistGet "should_proceed".toList
        (alistSet "should_proceed".toList v (alistRemove "should_prcodeed".toList m)) =
        some v := alistGet_set_self _ _ _
    have hrea : alistGet "reason".toList
        (alistSet "should_proceed".toList v (alistRemove "should_prcodeed".toList m)) =
        alistGet "reason".toList m := by
      rw [alistGet_set_ne _ _ (by decide), alistGet_remove_ne _ _ (by decide)]
    rw [hsp, hrea]
    rcases hre : alistGet "reason".toList m with _ | rv
    · refine ⟨pythonTruthy v, [], ?_, by simp, ?_, ?_⟩
      · simp [pySliceJ]
      · intro v' hv
        cases hv
        rfl
      · intro hv
        exact Option.noConfusion hv
    · rw [hre] at hshape
      rcases rv with _ | b0 | lex | s0 | items | ents <;> simp at hshape
      refine ⟨pythonTruthy v, s0.take 500, ?_, List.length_take_le 500 s0, ?_, ?_⟩
      · simp [pySliceJ]
      · intro v' hv
        cases hv
        rfl
      · intro hv
        exact Option.noConfusion hv

lemma gateFinal_fallback (b0 : Bool) (t0 : Str) :
    gateFinal (.jobj [("should_proceed".toList, .jbool b0),
      ("reason".toList, .jstr t0)]) = .ok (b0, .jstr (t0.take 500)) := rfl

/-- C10 counterexample.  `check_epic_eligibility` does not return a
(bool, string) result for every oracle response: on the parseable response
with a numeric `reason`, slicing `5[:500]` raises `TypeError`. -/
theorem C10_counterexample :
    checkEligResult "\x7b\"reason\": 5\x7d".toList = .error .typeError := by decide

/-- C10 (amended).  On every response whose normalized form parses as a
JSON object with a string-or-absent `reason`, the eligibility check
returns a bool `should_proceed` and a string `reason` of at most 500
characters, using the truthiness of the misspelled `should_prcodeed` value
when that key is present (else of `should_proceed`); and when the
normalized form is not parseable as JSON, `should_proceed` is true exactly
when the lower-cased normalized text contains `true` or `yes`, with the
normalized text truncated to 200 characters as reason.  (Parseable
non-object responses, and non-string non-list `reason` values, instead
raise; see the counterexample.  Parseability and the textual fallback are
evaluated on the normalized text, not the raw response.) -/
theorem C10_gate_result_shape (r : Str) :
    (jsonLoads (normalizeResp r) = none →
      checkEligResult r = .ok
        (pyContains (pyLower (normalizeResp r)) "true".toList ||
          pyContains (pyLower (normalizeResp r)) "yes".toList,
         .jstr (pyTake 200 (normalizeResp r)))
      ∧ (pyTake 200 (normalizeResp r)).length ≤ 500)
    ∧ (∀ m, jsonLoads (normalizeResp r) = some (.jobj m) → reasonShapeOk m = true →
        ∃ b s, checkEligResult r = .ok (b, .jstr s) ∧ s.length ≤ 500
          ∧ (∀ v, alistGet "should_prcodeed".toList m = some v → b = pythonTruthy v)
          ∧ (alistGet "should_prcodeed".toList m = none →
              b = pythonTruthy ((alistGet "should_proceed".toList m).getD .jnull))) := by
  constructor
  · intro h
    constructor
    · have h1 : checkEligResult r = gateFinal (.jobj
          [("should_proceed".toList, .jbool
            (pyContains (pyLower (normalizeResp r)) "true".toList ||
              pyContains (pyLower (normalizeResp r)) "yes".toList)),
           ("reason".toList, .jstr (pyTake 200 (normalizeResp r)))]) := by
        simp only [checkEligResult, h]
      rw [h1, gateFinal_fallback]
      have h2 : (pyTake 200 (normalizeResp r)).take 500 = pyTake 200 (normalizeResp r) := by
        simp [pyTake, List.take_take]
      rw [h2]
    · calc (pyTake 200 (normalizeResp r)).length ≤ 200 := List.length_take_le _ _
        _ ≤ 500 := by omega
  · intro m hm hr
    have : checkEligResult r = gateFinal (.jobj m) := by
      simp only [checkEligResult, hm]
    rw [this]
    exact gateFinal_obj m hr

/-- Witness for C10: the textual fallback on `maybe yes`, and the
misspelled-key path on a parseable object response. -/
theorem C10_gate_result_shape_witness :
    (checkEligResult "maybe yes".toList = .ok
      (pyContains (pyLower (normalizeResp "maybe yes".toList)) "true".toList ||
        pyContains (pyLower (normalizeResp "maybe yes".toList)) "yes".toList,
       .jstr (pyTake 200 (normalizeResp "maybe yes".toList)))
      ∧ (pyTake 200 (normalizeResp "maybe yes".toList)).length ≤ 500)
    ∧ (∃ b s, checkEligResult "\x7b\"should_prcodeed\": true, \"reason\": \"ok\"\x7d".toList =
        .ok (b, .jstr s) ∧ s.length ≤ 500
        ∧ (∀ v, alistGet "should_prcodeed".toList
            [("should_prcodeed".toList, JValue.jbool true),
             ("reason".toList, JValue.jstr "ok".toList)] = some v → b = pythonTruthy v)
        ∧ (alistGet "should_prcodeed".toList
            [("should_prcodeed".toList, JValue.jbool true),
             ("reason".toList, JValue.jstr "ok".toList)] = none →
            b = pythonTruthy ((alistGet "should_proceed".toList
              [("should_prcodeed".toList, JValue.jbool true),
               ("reason".toList, JValue.jstr "ok".toList)]).getD .jnull))) :=
  ⟨(C10_gate_result_shape "maybe yes".toList).1 (by decide),
   (C10_gate_result_shape "\x7b\"should_prcodeed\": true, \"reason\": \"ok\"\x7d".toList).2
     [("should_prcodeed".toList, JValue.jbool true),
      ("reason".toList, JValue.jstr "ok".toList)] (by decide) (by decide)⟩

/-! ## C8: endpoint-line extraction -/
lemma charOfNat_toNat {n : Nat} (h1 : 65 ≤ n) (h2 : n ≤ 90) :
    (Char.ofNat n).toNat = n := by
  have hv : n.isValidChar := Or.inl (by omega)
  unfold Char.ofNat
  rw [dif_pos hv]
  simp [Char.ofNatAux, Char.toNat, UInt32.toNat]

lemma toUpper_eq_space {c : Char} (h : Char.toUpper c = ' ') : c = ' ' := by
  unfold Char.toUpper at h
  by_cases hb : 97 ≤ c.toNat ∧ c.toNat ≤ 122
  · rw [if_pos (by exact ⟨hb.1, hb.2⟩)] at h
    have := congrArg Char.toNat h
    rw [charOfNat_toNat (by omega) (by omega)] at this
    have hsp : (' ' : Char).toNat = 32 := rfl
    omega
  · rwa [if_neg (by exact fun hh => hb ⟨hh.1, hh.2⟩)] at h

lemma toUpper_ws {c : Char} (h : pyIsWs c = true) : Char.toUpper c = c := by
  simp only [pyIsWs, Bool.or_eq_true, decide_eq_true_eq] at h
  rcases h with ((((h | h) | h) | h) | h) | h <;> subst h <;> decide

lemma pySplitTok_ne_nil (l : Str) (cur : Str) : pySplitTok cur l ≠ [] := by
  induction l generalizing cur with
  | nil => simp [pySplitTok]
  | cons c t ih =>
    by_cases h : pyIsWs c <;> simp [pySplitTok, h, ih]

lemma pySplitGap_ne_nil (l : Str) (h : ∃ c ∈ l, pyIsWs c = false) :
    pySplitGap l ≠ [] := by
  induction l with
  | nil => simp at h
  | cons c t ih =>
    obtain ⟨d, hd, hdw⟩ := h
    by_cases hc : pyIsWs c
    · rcases List.mem_cons.1 hd with rfl | hd'
      · rw [hc] at hdw
        cases hdw
      · simp only [pySplitGap, hc, if_true]
        exact ih ⟨d, hd', hdw⟩
    · simp only [pySplitGap, hc, Bool.false_eq_true, if_false]
      exact pySplitTok_ne_nil t [c]

lemma pySplitTok_two (l : Str) (cur : Str)
    (hws : ∃ c ∈ l, pyIsWs c = true)
    (hlast : ∀ d, l.getLast? = some d → pyIsWs d = false) :
    ∃ t1 t2 rest, pySplitTok cur l = t1 :: t2 :: rest := by
  induction l generalizing cur with
  | nil => simp at hws
  | cons c t ih =>
    by_cases hc : pyIsWs c
    · -- token ends here; the rest must contain a non-whitespace character
      have htne : t ≠ [] := by
        intro h0
        subst h0
        have := hlast c (by simp)
        rw [hc] at this
        cases this
      have hlast' : ∀ d, t.getLast? = some d → pyIsWs d = false := by
        intro d hd
        apply hlast
        rcases t with _ | ⟨x, xs⟩
        · simp at hd
        · rw [List.getLast?_cons_cons]
          exact hd
      have hnonws : ∃ d ∈ t, pyIsWs d = false := by
        rcases ht : t.getLast? with _ | d
        · rcases t with _ | ⟨x, xs⟩
          · exact absurd rfl htne
          · simp at ht
        · have hdm : d ∈ t := by
            obtain ⟨hne, heq⟩ := List.mem_getLast?_eq_getLast
              (show d ∈ t.getLast? by simp [Option.mem_def, ht])
            exact heq ▸ List.getLast_mem hne
          exact ⟨d, hdm, hlast' d ht⟩
      have hgap := pySplitGap_ne_nil t hnonws
      rcases hg : pySplitGap t with _ | ⟨x, xs⟩
      · exact absurd hg hgap
      · exact ⟨cur.reverse, x, xs, by simp [pySplitTok, hc, hg]⟩
    · -- still inside the first token
      have hws' : ∃ d ∈ t, pyIsWs d = true := by
        obtain ⟨d, hd, hdw⟩ := hws
        rcases List.mem_cons.1 hd with rfl | hd'
        · rw [hdw] at hc
          exact absurd rfl hc
        · exact ⟨d, hd', hdw⟩
      have htne : t ≠ [] := by
        intro h0
        subst h0
        simp at hws'
      have hlast' : ∀ d, t.getLast? = some d → pyIsWs d = false := by
        intro d hd
        apply hlast
        rcases t with _ | ⟨x, xs⟩
        · simp at hd
        · rw [List.getLast?_cons_cons]
          exact hd
      obtain ⟨t1, t2, rest, hsplit⟩ := ih (c :: cur) hws' hlast'
      exact ⟨t1, t2, rest, by simp [pySplitTok, hc, hsplit]⟩

lemma pyRstrip_last {s : Str} {c : Char} (h : (pyRstrip s).getLast? = some c) :
    pyIsWs c = false := by
  have heq : pyRstrip s = List.rdropWhile pyIsWs s := rfl
  rw [heq] at h
  have hne : List.rdropWhile pyIsWs s ≠ [] := by
    intro h0
    rw [h0] at h
    cases h
  have hlast := List.rdropWhile_last_not pyIsWs s hne
  rw [List.getLast?_eq_getLast _ hne] at h
  cases h
  simpa using hlast

lemma pyStrip_last {s : Str} {c : Char} (h : (pyStrip s).getLast? = some c) :
    pyIsWs c = false := pyRstrip_last h

lemma method_prefix_two (l pat : Str) (p0 : Char) (pt : Str)
    (hpat : pat = p0 :: pt) (hp0 : pyIsWs p0 = false)
    (hm : (pat ++ [' ']).isPrefixOf (pyUpper l) = true)
    (hlast : ∀ d, l.getLast? = some d → pyIsWs d = false) :
    ∃ t1 t2 rest, pySplitGap l = t1 :: t2 :: rest := by
  have hpre : (pat ++ [' ']) <+: pyUpper l := List.isPrefixOf_iff_prefix.1 hm
  have hsp : (' ' : Char) ∈ pyUpper l := hpre.subset (by simp)
  obtain ⟨d, hdmem, hdup⟩ := List.mem_map.1 hsp
  have hd : d = ' ' := toUpper_eq_space hdup
  subst hd
  rcases hl : l with _ | ⟨c1, l'⟩
  · rw [hl] at hdmem
    simp at hdmem
  · rw [hl] at hpre hdmem hlast
    have hup : pyUpper (c1 :: l') = Char.toUpper c1 :: pyUpper l' := rfl
    obtain ⟨rest', hrest'⟩ := hpre
    rw [hup, hpat] at hrest'
    have hc1 : Char.toUpper c1 = p0 := by
      have := congrArg List.head? hrest'
      simpa using this.symm
    have hc1w : pyIsWs c1 = false := by
      by_cases hw : pyIsWs c1 = true
      · have := toUpper_ws hw
        rw [this] at hc1
        rw [hc1] at hw
        rw [hw] at hp0
        cases hp0
      · simpa using hw
    have hwsmem : (' ' : Char) ∈ l' := by
      rcases List.mem_cons.1 hdmem with h1 | h1
      · rw [← h1] at hc1w
        simp [pyIsWs] at hc1w
      · exact h1
    have hl'ne : l' ≠ [] := List.ne_nil_of_mem hwsmem
    have hlast' : ∀ d, l'.getLast? = some d → pyIsWs d = false := by
      intro d hd
      apply hlast
      rcases l' with _ | ⟨x, xs⟩
      · simp at hd
      · rw [List.getLast?_cons_cons]
        exact hd
    have := pySplitTok_two l' [c1] ⟨' ', hwsmem, by simp [pyIsWs]⟩ hlast'
    obtain ⟨t1, t2, rest, hsplit⟩ := this
    exact ⟨t1, t2, rest, by simp [pySplitGap, hc1w, hsplit]⟩

lemma splitWs_two_of_method (raw : Str)
    (h : lineStartsWithMethod (pyUpper (pyStrip raw)) = true) :
    ∃ t1 t2 rest, pySplitWs (pyStrip raw) = t1 :: t2 :: rest := by
  have hlast : ∀ d, (pyStrip raw).getLast? = some d → pyIsWs d = false :=
    fun d hd => pyStrip_last hd
  unfold lineStartsWithMethod at h
  simp only [Bool.or_eq_true] at h
  rcases h with (((h | h) | h) | h) | h
  · exact method_prefix_two _ "GET".toList 'G' "ET".toList rfl (by decide) h hlast
  · exact method_prefix_two _ "POST".toList 'P' "OST".toList rfl (by decide) h hlast
  · exact method_prefix_two _ "PUT".toList 'P' "UT".toList rfl (by decide) h hlast
  · exact method_prefix_two _ "DELETE".toList 'D' "ELETE".toList rfl (by decide) h hlast
  · exact method_prefix_two _ "PATCH".toList 'P' "ATCH".toList rfl (by decide) h hlast


lemma endpointOfLine_eq_spec (rawLine : Str) :
    endpointOfLine rawLine = specLineEndpoint rawLine := by
  unfold endpointOfLine specLineEndpoint
  by_cases h : lineStartsWithMethod (pyUpper (pyStrip rawLine)) = true
  · rw [if_pos h, if_pos h]
    obtain ⟨t1, t2, rest, hsplit⟩ := splitWs_two_of_method rawLine h
    rw [hsplit]
    simp
  · rw [if_neg h, if_neg h]

lemma extract_endpoints_eq_spec (text : Str) :
    extract_endpoints text = (pySplitlines text).filterMap specLineEndpoint := by
  unfold extract_endpoints
  by_cases h : text.isEmpty
  · rw [if_pos h]
    rcases text with _ | ⟨c, t⟩
    · simp [pySplitlines]
    · cases h
  · rw [if_neg h]
    exact List.filterMap_congr (fun l _ => endpointOfLine_eq_spec l)

/-- C8 counterexample.  A line whose first whitespace-delimited token
is `GET` followed by another token does not contribute a pair when the
separator is a tab: the code requires a literal space after the method. -/
theorem C8_counterexample :
    extract_endpoints "GET\t/users".toList = []
    ∧ pySplitWs (pyStrip "GET\t/users".toList) = ["GET".toList, "/users".toList] := by
  decide

/-- C8 (amended).  A line contributes a `(method, path)` pair iff its
stripped form starts, case-insensitively, with one of GET, POST, PUT,
DELETE, PATCH followed by a literal space character; the pair is (first
token uppercased, second token), in line order with duplicates kept (the
second token always exists: stripping removes trailing whitespace).  On
the five-line example with surrounding prose, exactly the five pairs are
returned in order. -/
theorem C8_endpoint_extraction (text : Str) :
    extract_endpoints text = (pySplitlines text).filterMap specLineEndpoint
    ∧ extract_endpoints
        "Some intro prose\nGET /users\nPOST /users\nGET /users/\x7bid\x7d\nPUT /users/\x7bid\x7d\nDELETE /users/\x7bid\x7d\nUsers must be returned".toList =
      [("GET".toList, "/users".toList), ("POST".toList, "/users".toList),
       ("GET".toList, "/users/\x7bid\x7d".toList), ("PUT".toList, "/users/\x7bid\x7d".toList),
       ("DELETE".toList, "/users/\x7bid\x7d".toList)] :=
  ⟨extract_endpoints_eq_spec text, by decide⟩

/-! ## C1: gate-prompt signals vs the resolver detectors -/
lemma normalize_falsy {v : JValue} (h : pythonTruthy v = false) :
    normalize_description (some v) = .ok [] := by
  unfold normalize_description
  simp [h]

lemma gate_desc_eq {df : Option JValue} {desc : Str}
    (h2 : normalize_description df = .ok desc) :
    (match df with
     | some v => if pythonTruthy v then normalize_description (some v)
                 else Except.ok ([] : Str)
     | none => Except.ok ([] : Str)) = Except.ok desc := by
  match df with
  | none =>
    unfold normalize_description at h2
    cases h2
    rfl
  | some v =>
    dsimp only
    by_cases ht : pythonTruthy v
    · rw [if_pos ht]
      exact h2
    · rw [if_neg ht]
      rw [normalize_falsy (by simpa using ht)] at h2
      exact h2

lemma ok_bind {α β : Type} (x : α) (f : α → Except PyErr β) :
    (Except.ok x >>= f) = f x := rfl

lemma C1_core (http : Str → Option Str) (pyaml : Str → Option JValue)
    (desc : Str) (sig : Bool × Bool)
    (h4 : gateSignalsFromDesc (contractFromDesc http pyaml true desc) desc = .ok sig) :
    sig.1 = (extract_openapi_url desc).isSome
    ∧ (sig.2 = true ↔ extract_openapi_url desc = none ∧ extract_endpoints desc ≠ []) := by
  unfold contractFromDesc at h4
  by_cases hd : desc.isEmpty
  · rw [if_pos hd] at h4
    have hdesc : desc = [] := by
      rcases desc with _ | ⟨c, t⟩
      · rfl
      · cases hd
    subst hdesc
    have hval : gateSignalsFromDesc (.jobj [("description".toList, .jstr [])]) [] =
        .ok (false, false) := rfl
    rw [hval] at h4
    have hsig := (Except.ok.inj h4).symm
    subst hsig
    exact ⟨rfl, by simp [show extract_endpoints ([] : Str) = [] from rfl]⟩
  · rw [if_neg hd] at h4
    rcases hu : extract_openapi_url desc with _ | u
    · rw [hu] at h4
      dsimp only at h4
      rcases he : extract_endpoints desc with _ | ⟨e, es⟩
      · rw [he] at h4
        dsimp only at h4
        have hval : gateSignalsFromDesc (.jobj [("description".toList, .jstr desc)]) desc =
            .ok ((match extract_openapi_url desc with
                  | some u => !u.isEmpty
                  | none => false), false) := rfl
        rw [hval, hu] at h4
        have hsig := (Except.ok.inj h4).symm
        subst hsig
        refine ⟨by simp [hu], ?_⟩
        simp [hu, he]
      · rw [he] at h4
        dsimp only at h4
        have hval : gateSignalsFromDesc
            (.jobj [("endpoints".toList,
              .jarr ((e :: es).map fun ep =>
                JValue.jobj [("method".toList, .jstr ep.1), ("path".toList, .jstr ep.2)]))]) desc =
            .ok ((match extract_openapi_url desc with
                  | some u => !u.isEmpty
                  | none => false), true) := rfl
        rw [hval, hu] at h4
        have hsig := (Except.ok.inj h4).symm
        subst hsig
        refine ⟨by simp [hu], ?_⟩
        simp [hu, he]
    · rw [hu] at h4
      dsimp only at h4
      rw [if_pos (rfl : true = true)] at h4
      have hnn := extract_openapi_url_ne_nil hu
      rcases hf : fetch_openapi_spec http pyaml u with _ | spec
      · rw [hf] at h4
        dsimp only at h4
        have hval : gateSignalsFromDesc (.jobj [("openapi_url".toList, .jstr u)]) desc =
            .ok (!u.isEmpty ||
              (match extract_openapi_url desc with
               | some u => !u.isEmpty
               | none => false), false) := rfl
        rw [hval] at h4
        have hsig := (Except.ok.inj h4).symm
        subst hsig
        constructor
        · simp [hu, hnn]
        · simp [hu]
      · rw [hf] at h4
        dsimp only at h4
        by_cases ht : pythonTruthy spec
        · rw [if_pos ht] at h4
          have hval : gateSignalsFromDesc
              (.jobj [("openapi_url".toList, .jstr u), ("openapi_spec".toList, spec)]) desc =
              .ok (!u.isEmpty ||
                (match extract_openapi_url desc with
                 | some u => !u.isEmpty
                 | none => false), false) := rfl
          rw [hval] at h4
          have hsig := (Except.ok.inj h4).symm
          subst hsig
          constructor
          · simp [hu, hnn]
          · simp [hu]
        · rw [if_neg ht] at h4
          have hval : gateSignalsFromDesc (.jobj [("openapi_url".toList, .jstr u)]) desc =
              .ok (!u.isEmpty ||
                (match extract_openapi_url desc with
                 | some u => !u.isEmpty
                 | none => false), false) := rfl
          rw [hval] at h4
          have hsig := (Except.ok.inj h4).symm
          subst hsig
          constructor
          · simp [hu, hnn]
          · simp [hu]

/-- C1 (amended).  For every epic whose description normalizes
successfully and its extracted contract: the `openapi_url_present` signal
embedded in the gate prompt equals the URL detector's value on the
normalized description for every Contract variant; the `endpoints_listed`
signal is true exactly when no specification URL was found and the
endpoint detector fires — so it matches the endpoint detector whenever no
URL is present, but is false for URL-based variants even when endpoint
lines exist in the description. -/
theorem C1_gate_signals (http : Str → Option Str) (pyaml : Str → Option JValue) (epic : JValue)
    (df : Option JValue) (desc : Str) (contract : JValue) (sig : Bool × Bool)
    (h1 : getDescField epic = .ok df)
    (h2 : normalize_description df = .ok desc)
    (h3 : extract_contract http pyaml true epic = .ok contract)
    (h4 : gateSignals epic contract = .ok sig) :
    sig.1 = (extract_openapi_url desc).isSome
    ∧ (sig.2 = true ↔ extract_openapi_url desc = none ∧ extract_endpoints desc ≠ []) := by
  have hc : contract = contractFromDesc http pyaml true desc := by
    simp only [extract_contract, h1, h2, Bind.bind, Except.bind] at h3
    exact (Except.ok.inj h3).symm
  subst hc
  unfold gateSignals at h4
  rw [h1, ok_bind] at h4
  rcases df with _ | v
  · dsimp only at h4
    unfold normalize_description at h2
    dsimp only at h2
    have hdesc : desc = [] := (Except.ok.inj h2).symm
    subst hdesc
    exact C1_core http pyaml [] sig h4
  · dsimp only at h4
    by_cases ht : pythonTruthy v
    · rw [if_pos ht, h2, ok_bind] at h4
      exact C1_core http pyaml desc sig h4
    · rw [if_neg ht] at h4
      rw [normalize_falsy (by simpa using ht)] at h2
      have hdesc : desc = [] := (Except.ok.inj h2).symm
      subst hdesc
      exact C1_core http pyaml [] sig h4

/-- C1 counterexample.  For an epic whose description holds both a
specification URL and an endpoint line, the extracted contract is the URL
variant and the gate embeds `endpoints_listed = false`, while the endpoint
detector on the normalized description fires — the embedded signal does
not equal the detector value. -/
theorem C1_counterexample :
    extract_contract (fun _ => none) (fun _ => none) true
      (.jobj [("fields".toList, .jobj [("description".toList,
        .jstr "see https://a.b/swagger.json\nGET /u".toList)])]) =
      .ok (.jobj [("openapi_url".toList, .jstr "https://a.b/swagger.json".toList)])
    ∧ gateSignals
        (.jobj [("fields".toList, .jobj [("description".toList,
          .jstr "see https://a.b/swagger.json\nGET /u".toList)])])
        (.jobj [("openapi_url".toList, .jstr "https://a.b/swagger.json".toList)]) =
      .ok (true, false)
    ∧ extract_endpoints "see https://a.b/swagger.json\nGET /u".toList =
        [("GET".toList, "/u".toList)] := by
  refine ⟨by decide, by decide, by decide⟩

/-- Witness for C1 on an endpoints-only epic: both signals match the
detectors. -/
theorem C1_gate_signals_witness :
    ((false, true) : Bool × Bool).1 =
      (extract_openapi_url "GET /a\nPOST /b".toList).isSome
    ∧ (((false, true) : Bool × Bool).2 = true ↔
        extract_openapi_url "GET /a\nPOST /b".toList = none
        ∧ extract_endpoints "GET /a\nPOST /b".toList ≠ []) :=
  C1_gate_signals (fun _ => none) (fun _ => none)
    (.jobj [("fields".toList, .jobj [("description".toList,
      .jstr "GET /a\nPOST /b".toList)])])
    (some (.jstr "GET /a\nPOST /b".toList)) "GET /a\nPOST /b".toList
    (.jobj [("endpoints".toList, .jarr
      [.jobj [("method".toList, .jstr "GET".toList), ("path".toList, .jstr "/a".toList)],
       .jobj [("method".toList, .jstr "POST".toList), ("path".toList, .jstr "/b".toList)]])])
    (false, true) (by decide) (by decide) (by decide) (by decide)

end ApiTestingAgent
